import Mathlib

/-!
# A verification development for the `relish` binary serialization format

This file gives a shallow embedding, in Lean 4, of the `relish` codec
(`src/buf.rs`, `src/types.rs`, `src/parse.rs`, `src/write.rs`, `src/error.rs`,
the code generated by `relish_derive/src/lib.rs`, and the schema-less decoder in
`relish_ascii/src/parse_binary.rs`), together with theorems that settle the
frozen claims about the format.

Modelling conventions:

* Machine bytes (`u8`) are modelled as `Nat`; where the Rust code performs a
  narrowing cast (`as u8`, `to_le_bytes`) the model applies `% 256` explicitly.
* A Rust byte slice is a `List Nat`; the `BytesRef::read` carve is `readN`.
* Fallible Rust functions returning `ParseResult`/`WriteResult` become
  `Except`-valued Lean functions over the error kind inductives of
  `src/error.rs`.
* Executions of the reference decoder that do not return normally — an
  out-of-bounds slice index (a Rust panic) or an infinite loop (the
  zero-progress container loops reachable with `Null`-typed elements) — are
  modelled by the value `none` of `Option (Except ...)`.  A loop iteration of a
  pure parser that consumes no input and changes no other state repeats
  forever, so the models below detect zero progress and return `none` exactly
  where the Rust loop diverges.
-/

set_option maxRecDepth 4096

namespace Relish

/-- The parse-error taxonomy of `src/error.rs` (`ParseErrorKind`).  The Rust
`ParseError` struct is a transparent wrapper around its kind, so the model
identifies the two.  Note that `src/error.rs` contains no
`InvalidTimestamp` constructor. -/
inductive ParseErrorKind where
  | InvalidTypeId (b : Nat)
  | InvalidFieldId (b : Nat)
  | FieldOrderViolation (previous current : Nat)
  | InvalidUtf8
  | DuplicateMapKey
  | EnumContentLengthMismatch (expected actual : Nat)
  | TypeMismatch (expected actual : Nat)
  | InvalidBoolValue (b : Nat)
  | InsufficientData (needed available : Nat)
  | MissingRequiredField
  | ExtraData (bytesRemaining : Nat)
  | UnknownVariant (id : Nat)
  deriving DecidableEq, Repr

/-- The write-error taxonomy of `src/error.rs` (`WriteErrorKind`): the enum as
declared there has exactly the two constructors below. -/
inductive WriteErrorKind where
  | FieldIdTooLarge (id : Nat)
  | ContentTooLarge (n : Nat)
  deriving DecidableEq, Repr

/-- Wire type identifiers (`TypeId` in `src/types.rs`). -/
inductive TypeId where
  | null | bool | u8 | u16 | u32 | u64 | u128
  | i8 | i16 | i32 | i64 | i128 | f32 | f64
  | string | array | map | struct | enum | timestamp
  deriving DecidableEq, Repr

/-- The numeric value of a `TypeId` (its `#[repr(u8)]` discriminant). -/
def TypeId.toByte : TypeId → Nat
  | .null => 0x00 | .bool => 0x01 | .u8 => 0x02 | .u16 => 0x03 | .u32 => 0x04
  | .u64 => 0x05 | .u128 => 0x06 | .i8 => 0x07 | .i16 => 0x08 | .i32 => 0x09
  | .i64 => 0x0A | .i128 => 0x0B | .f32 => 0x0C | .f64 => 0x0D
  | .string => 0x0E | .array => 0x0F | .map => 0x10 | .struct => 0x11
  | .enum => 0x12 | .timestamp => 0x13

/-- `TypeId::from_byte`: reject the high bit, then match the assigned codes. -/
def TypeId.fromByte (b : Nat) : Option TypeId :=
  if b % 256 ≥ 0x80 then none
  else match b with
  | 0x00 => some .null | 0x01 => some .bool | 0x02 => some .u8
  | 0x03 => some .u16 | 0x04 => some .u32 | 0x05 => some .u64
  | 0x06 => some .u128 | 0x07 => some .i8 | 0x08 => some .i16
  | 0x09 => some .i32 | 0x0A => some .i64 | 0x0B => some .i128
  | 0x0C => some .f32 | 0x0D => some .f64 | 0x0E => some .string
  | 0x0F => some .array | 0x10 => some .map | 0x11 => some .struct
  | 0x12 => some .enum | 0x13 => some .timestamp
  | _ => none

/-- Length classes (`TypeLength` in `src/types.rs`). -/
inductive TypeLength where
  | fixed (n : Nat)
  | varsize
  deriving DecidableEq, Repr

/-- `TypeId::length`. -/
def TypeId.lengthClass : TypeId → TypeLength
  | .null => .fixed 0 | .bool => .fixed 1 | .u8 => .fixed 1 | .u16 => .fixed 2
  | .u32 => .fixed 4 | .u64 => .fixed 8 | .u128 => .fixed 16
  | .i8 => .fixed 1 | .i16 => .fixed 2 | .i32 => .fixed 4 | .i64 => .fixed 8
  | .i128 => .fixed 16 | .f32 => .fixed 4 | .f64 => .fixed 8
  | .string => .varsize | .array => .varsize | .map => .varsize
  | .struct => .varsize | .enum => .varsize | .timestamp => .fixed 8

/-- `BytesRef::read(amt)`: carve off the next `amt` bytes, failing with
`InsufficientData` when fewer remain. -/
def readN (amt : Nat) (data : List Nat) : Except ParseErrorKind (List Nat × List Nat) :=
  if amt > data.length then .error (.InsufficientData amt data.length)
  else .ok (data.take amt, data.drop amt)

/-- `read_byte` in `src/parse.rs`: one-byte carve, returning the byte. -/
def readByte (data : List Nat) : Except ParseErrorKind (Nat × List Nat) :=
  match data with
  | [] => .error (.InsufficientData 1 0)
  | b :: rest => .ok (b, rest)

/-- Little-endian bytes of `x` at width `w` (the `to_le_bytes` of the Rust
integer of byte width `w`; the `% 256` is the byte extraction). -/
def leBytes : Nat → Nat → List Nat
  | 0, _ => []
  | w + 1, x => x % 256 :: leBytes w (x / 256)

/-- `from_le_bytes`: rebuild the integer from little-endian bytes. -/
def fromLeBytes : List Nat → Nat
  | [] => 0
  | b :: bs => b + 256 * fromLeBytes bs

/-- `write_tagged_varint_length` (`src/types.rs`): lengths above `2^31 - 1` are
rejected with `ContentTooLarge`; short lengths get one byte `(len << 1) as u8`,
long lengths four little-endian bytes of `(len << 1) | 1`. -/
def writeTaggedVarintLength (length : Nat) : Except WriteErrorKind (List Nat) :=
  if length > 2 ^ 31 - 1 then .error (.ContentTooLarge length)
  else if length < 128 then .ok [(length * 2) % 256]
  else .ok (leBytes 4 (length * 2 + 1))

/-- `tagged_varint_length_size`. -/
def taggedVarintLengthSize (length : Nat) : Nat :=
  if length < 128 then 1 else 4

/-- `read_tagged_varint_length` (`src/parse.rs`): one byte; even low bit means
short form `byte >> 1`, odd means three more bytes forming a little-endian
`u32` shifted right by one. -/
def readTaggedVarintLength (data : List Nat) : Except ParseErrorKind (Nat × List Nat) :=
  match readByte data with
  | .error e => .error e
  | .ok (b0, rest) =>
    if b0 % 2 = 0 then .ok (b0 / 2, rest)
    else match rest with
      | b1 :: b2 :: b3 :: rest' => .ok (fromLeBytes [b0, b1, b2, b3] / 2, rest')
      | _ => .error (.InsufficientData 3 rest.length)

end Relish

namespace Relish

/-! ## Basic facts about the varint codec -/

theorem leBytes_length (w x : Nat) : (leBytes w x).length = w := by
  induction w generalizing x with
  | zero => rfl
  | succ w ih => simp [leBytes, ih]

theorem fromLeBytes_leBytes (w x : Nat) (h : x < 256 ^ w) :
    fromLeBytes (leBytes w x) = x := by
  induction w generalizing x with
  | zero => simp [leBytes, fromLeBytes]; omega
  | succ w ih =>
    have hdiv : x / 256 < 256 ^ w := by
      rw [Nat.div_lt_iff_lt_mul (by norm_num)]
      calc x < 256 ^ (w + 1) := h
        _ = 256 ^ w * 256 := by ring
    simp [leBytes, fromLeBytes, ih _ hdiv]
    omega

/-- Decoding the four-byte long form of an odd tagged value `x < 2³²` yields
`x / 2` and preserves trailing bytes. -/
theorem read_long_form (x : Nat) (hodd : x % 2 = 1) (hx : x < 2 ^ 32) (extra : List Nat) :
    readTaggedVarintLength (leBytes 4 x ++ extra) = .ok (x / 2, extra) := by
  have hfl : fromLeBytes [x % 256, x / 256 % 256, x / 256 / 256 % 256,
      x / 256 / 256 / 256 % 256] = x := by
    have h := fromLeBytes_leBytes 4 x (by norm_num at hx ⊢; omega)
    simpa [leBytes] using h
  simp only [leBytes, List.cons_append, List.nil_append,
    readTaggedVarintLength, readByte]
  rw [if_neg (by omega), hfl]

/-- Claim C5, varint round-trip and sizes: for every `ℓ ≤ 2³¹ − 1` the encoder
succeeds, its output has length 1 when `ℓ < 128` and 4 otherwise, and decoding
the output (with any trailing bytes) returns `ℓ` and the trailing bytes; for
every `ℓ > 2³¹ − 1` the encoder fails with `ContentTooLarge ℓ`. -/
theorem varint_roundtrip_and_size :
    (∀ len : Nat, len ≤ 2 ^ 31 - 1 →
      ∃ bs, writeTaggedVarintLength len = .ok bs ∧
        bs.length = (if len < 128 then 1 else 4) ∧
        ∀ extra, readTaggedVarintLength (bs ++ extra) = .ok (len, extra)) ∧
    (∀ len : Nat, len > 2 ^ 31 - 1 →
      writeTaggedVarintLength len = .error (.ContentTooLarge len)) := by
  constructor
  · intro len hlen
    by_cases hs : len < 128
    · refine ⟨[(len * 2) % 256], ?_, ?_, ?_⟩
      · rw [writeTaggedVarintLength, if_neg (by omega), if_pos hs]
      · simp [hs]
      · intro extra
        have hes : (len * 2) % 256 = len * 2 := by omega
        simp [readTaggedVarintLength, readByte, hes]
    · refine ⟨leBytes 4 (len * 2 + 1), ?_, ?_, ?_⟩
      · rw [writeTaggedVarintLength, if_neg (by omega), if_neg hs]
      · simp [hs, leBytes_length]
      · intro extra
        have h2 : (len * 2 + 1) / 2 = len := by omega
        rw [read_long_form (len * 2 + 1) (by omega) (by omega) extra, h2]
  · intro len hlen
    rw [writeTaggedVarintLength, if_pos (by omega)]

/-- Witness for C5 at `ℓ = 130` and `ℓ = 2³¹`. -/
theorem varint_roundtrip_and_size_witness :
    ∃ bs, writeTaggedVarintLength 130 = .ok bs ∧
      bs.length = (if (130 : Nat) < 128 then 1 else 4) ∧
      ∀ extra, readTaggedVarintLength (bs ++ extra) = .ok (130, extra) := by
  exact varint_roundtrip_and_size.1 130 (by norm_num)

/-- Claim C6: the decoder accepts non-minimal long-form encodings: for every
`ℓ < 128` the four-byte long form `LE32((ℓ<<1)|1)` decodes to `ℓ`; in
particular `0x01 0x00 0x00 0x00` decodes to `0`. -/
theorem varint_long_form_tolerated :
    (∀ len : Nat, len < 128 → ∀ extra,
      readTaggedVarintLength (leBytes 4 (len * 2 + 1) ++ extra) = .ok (len, extra)) ∧
    readTaggedVarintLength [0x01, 0x00, 0x00, 0x00] = .ok (0, []) := by
  constructor
  · intro len hlen extra
    have h2 : (len * 2 + 1) / 2 = len := by omega
    rw [read_long_form (len * 2 + 1) (by omega) (by omega) extra, h2]
  · rfl

/-- Witness for C6 at `ℓ = 5`. -/
theorem varint_long_form_tolerated_witness :
    readTaggedVarintLength (leBytes 4 (5 * 2 + 1) ++ [9]) = .ok (5, [9]) :=
  varint_long_form_tolerated.1 5 (by norm_num) [9]

end Relish

namespace Relish

/-! ## The universe of supported types and values

`RTy` is the grammar of Rust types for which `src/types.rs` and the derive
macro `relish_derive/src/lib.rs` provide `Relish` implementations: the
primitives, `String`, `Vec<T>`, `bytes::Bytes`, `HashMap<K, V>`, and derived
structs and enums.  `RVal` is the corresponding value universe.  Fixed-width
numerics (including `f32`/`f64`) are carried as their little-endian bit
patterns, which is exactly what the codec reads and writes. -/

/-- The fixed-width numeric types covered by `impl_relish_integer!`. -/
inductive NumTy where
  | u8 | u16 | u32 | u64 | u128 | i8 | i16 | i32 | i64 | i128 | f32 | f64
  deriving DecidableEq, Repr

/-- `mem::size_of` of the numeric type. -/
def NumTy.width : NumTy → Nat
  | .u8 => 1 | .u16 => 2 | .u32 => 4 | .u64 => 8 | .u128 => 16
  | .i8 => 1 | .i16 => 2 | .i32 => 4 | .i64 => 8 | .i128 => 16
  | .f32 => 4 | .f64 => 8

/-- The `TYPE` constant of the numeric type. -/
def NumTy.typeId : NumTy → TypeId
  | .u8 => .u8 | .u16 => .u16 | .u32 => .u32 | .u64 => .u64 | .u128 => .u128
  | .i8 => .i8 | .i16 => .i16 | .i32 => .i32 | .i64 => .i64 | .i128 => .i128
  | .f32 => .f32 | .f64 => .f64

/-- Supported static types.  A struct schema lists its declared fields in the
order the generated code processes them (sorted by field id), each as
`(field_id, is_optional, field type)`; an enum schema lists
`(variant_id, payload type)`. -/
inductive RTy where
  | null
  | boolT
  | num (n : NumTy)
  | str
  | bytes
  | arr (elem : RTy)
  | map (key val : RTy)
  | struct (fields : List (Nat × Bool × RTy))
  | enum (variants : List (Nat × RTy))

/-- The `Relish::TYPE` constant of a supported type. -/
def RTy.typeId : RTy → TypeId
  | .null => .null
  | .boolT => .bool
  | .num n => n.typeId
  | .str => .string
  | .arr _ => .array
  | .map _ _ => .map
  | .struct _ => .struct
  | .enum _ => .enum
  | .bytes => .array

/-- Runtime values.  Container values carry the type-id bytes that the writer
emits into container headers; struct values carry one entry per declared field
`(field_id, declared type id, optional value)`, in declaration (= id) order,
and enum values carry `(variant_id, payload type id, payload)`. -/
inductive RVal where
  | vnull
  | vbool (b : Bool)
  | vnum (n : NumTy) (bits : Nat)
  | vstr (s : List Nat)
  | vbytes (bs : List Nat)
  | varr (elemTid : TypeId) (elems : List RVal)
  | vmap (keyTid valTid : TypeId) (entries : List (RVal × RVal))
  | vstruct (fields : List (Nat × TypeId × Option RVal))
  | venum (vid : Nat) (tid : TypeId) (v : RVal)

mutual

/-- Structural equality of values, mirroring the derived `PartialEq`/`Eq` of
the Rust value types (used for the `HashMap` duplicate-key check). -/
def RVal.beq (a : RVal) (b : RVal) : Bool :=
  match a, b with
  | .vnull, .vnull => true
  | .vbool x, .vbool y => x == y
  | .vnum n x, .vnum m y => n == m && x == y
  | .vstr x, .vstr y => x == y
  | .vbytes x, .vbytes y => x == y
  | .varr t x, .varr u y => t == u && RVal.beqList x y
  | .vmap kt vt x, .vmap ku vu y => kt == ku && vt == vu && RVal.beqEntries x y
  | .vstruct x, .vstruct y => RVal.beqFields x y
  | .venum i t x, .venum j u y => i == j && t == u && RVal.beq x y
  | _, _ => false
  termination_by structural a

def RVal.beqList (a : List RVal) (b : List RVal) : Bool :=
  match a, b with
  | [], [] => true
  | x :: xs, y :: ys => RVal.beq x y && RVal.beqList xs ys
  | _, _ => false
  termination_by structural a

def RVal.beqEntries (a : List (RVal × RVal)) (b : List (RVal × RVal)) : Bool :=
  match a, b with
  | [], [] => true
  | (kx, vx) :: xs, (ky, vy) :: ys =>
      RVal.beq kx ky && RVal.beq vx vy && RVal.beqEntries xs ys
  | _, _ => false
  termination_by structural a

def RVal.beqFields (a : List (Nat × TypeId × Option RVal))
    (b : List (Nat × TypeId × Option RVal)) : Bool :=
  match a, b with
  | [], [] => true
  | (i, t, none) :: xs, (j, u, none) :: ys =>
      i == j && t == u && RVal.beqFields xs ys
  | (i, t, some x) :: xs, (j, u, some y) :: ys =>
      i == j && t == u && RVal.beq x y && RVal.beqFields xs ys
  | _, _ => false
  termination_by structural a

end

mutual

/-- `Relish::value_length`: the byte length `write_value` will produce,
including the length prefix of varsize types (each `impl` in `src/types.rs`
and the generated code in `relish_derive`). -/
def valueLength : RVal → Nat
  | .vnull => 0
  | .vbool _ => 1
  | .vnum n _ => n.width
  | .vstr s => taggedVarintLengthSize s.length + s.length
  | .vbytes bs => taggedVarintLengthSize (1 + bs.length) + (1 + bs.length)
  | .varr _ es =>
      let c := 1 + elemsLength es
      taggedVarintLengthSize c + c
  | .vmap _ _ entries =>
      let c := 2 + entriesLength entries
      taggedVarintLengthSize c + c
  | .vstruct fs =>
      let c := structContentLength fs
      taggedVarintLengthSize c + c
  | .venum _ _ v =>
      let c := 1 + 1 + valueLength v
      taggedVarintLengthSize c + c

/-- Sum of element lengths (the `content_len` loop of `Vec::write_value`). -/
def elemsLength : List RVal → Nat
  | [] => 0
  | e :: es => valueLength e + elemsLength es

/-- Sum of entry lengths (the `content_len` loop of `HashMap::write_value`). -/
def entriesLength : List (RVal × RVal) → Nat
  | [] => 0
  | (k, v) :: rest => valueLength k + valueLength v + entriesLength rest

/-- Struct content length: `1 + 1 + value_length` per present field
(the generated `write_value`/`value_length` loops). -/
def structContentLength : List (Nat × TypeId × Option RVal) → Nat
  | [] => 0
  | (_, _, none) :: rest => structContentLength rest
  | (_, _, some v) :: rest => 2 + valueLength v + structContentLength rest

end

mutual

/-- `Relish::write_value`: the bytes a value appends to the output buffer
(each `impl` in `src/types.rs` and the code generated by `relish_derive`).
The `content_len` of a varsize value is computed with `value_length` before
writing, exactly as the source does. -/
def writeValue : RVal → Except WriteErrorKind (List Nat)
  | .vnull => .ok []
  | .vbool b => .ok [if b then 0xFF else 0x00]
  | .vnum n bits => .ok (leBytes n.width bits)
  | .vstr s =>
      match writeTaggedVarintLength s.length with
      | .error e => .error e
      | .ok p => .ok (p ++ s)
  | .vbytes bs =>
      match writeTaggedVarintLength (1 + bs.length) with
      | .error e => .error e
      | .ok p => .ok (p ++ TypeId.u8.toByte :: bs)
  | .varr tid es =>
      match writeTaggedVarintLength (1 + elemsLength es) with
      | .error e => .error e
      | .ok p =>
        match writeElems es with
        | .error e => .error e
        | .ok body => .ok (p ++ tid.toByte :: body)
  | .vmap ktid vtid entries =>
      match writeTaggedVarintLength (2 + entriesLength entries) with
      | .error e => .error e
      | .ok p =>
        match writeEntries entries with
        | .error e => .error e
        | .ok body => .ok (p ++ ktid.toByte :: vtid.toByte :: body)
  | .vstruct fs =>
      match writeTaggedVarintLength (structContentLength fs) with
      | .error e => .error e
      | .ok p =>
        match writeFieldRecords fs with
        | .error e => .error e
        | .ok body => .ok (p ++ body)
  | .venum vid tid v =>
      match writeTaggedVarintLength (1 + 1 + valueLength v) with
      | .error e => .error e
      | .ok p =>
        match writeValue v with
        | .error e => .error e
        | .ok body => .ok (p ++ vid :: tid.toByte :: body)

/-- The element-writing loop of `Vec::write_value`. -/
def writeElems : List RVal → Except WriteErrorKind (List Nat)
  | [] => .ok []
  | e :: es =>
      match writeValue e with
      | .error er => .error er
      | .ok b =>
        match writeElems es with
        | .error er => .error er
        | .ok bs => .ok (b ++ bs)

/-- The entry-writing loop of `HashMap::write_value`. -/
def writeEntries : List (RVal × RVal) → Except WriteErrorKind (List Nat)
  | [] => .ok []
  | (k, v) :: rest =>
      match writeValue k with
      | .error er => .error er
      | .ok kb =>
        match writeValue v with
        | .error er => .error er
        | .ok vb =>
          match writeEntries rest with
          | .error er => .error er
          | .ok bs => .ok (kb ++ vb ++ bs)

/-- The record-writing loop of the generated struct `write_value`: present
fields emit `field_id`, the declared type id byte, then the value bytes. -/
def writeFieldRecords : List (Nat × TypeId × Option RVal) → Except WriteErrorKind (List Nat)
  | [] => .ok []
  | (_, _, none) :: rest => writeFieldRecords rest
  | (id, tid, some v) :: rest =>
      match writeValue v with
      | .error er => .error er
      | .ok b =>
        match writeFieldRecords rest with
        | .error er => .error er
        | .ok bs => .ok (id :: tid.toByte :: b ++ bs)

end

/-- `to_vec` (`src/write.rs`): push the static type id byte, then the value
bytes. -/
def toVec (t : RTy) (v : RVal) : Except WriteErrorKind (List Nat) :=
  match writeValue v with
  | .error e => .error e
  | .ok bs => .ok (t.typeId.toByte :: bs)

end Relish

namespace Relish

/-! ## The typed parser

`PRes α` is the result of running a piece of the reference decoder: `none`
models an execution that does not return normally (a panic from an
out-of-bounds index, or an infinite loop), `some (.error e)` a typed parse
failure, `some (.ok a)` success. -/

abbrev PRes (α : Type) := Option (Except ParseErrorKind α)

/-- `TypeId::read_for_type::<T>`: read the type byte, reject unassigned ids,
and compare with the expected static type. -/
def readForType (expected : TypeId) (data : List Nat) :
    Except ParseErrorKind (TypeId × List Nat) :=
  match readByte data with
  | .error e => .error e
  | .ok (tb, rest) =>
    match TypeId.fromByte tb with
    | none => .error (.InvalidTypeId tb)
    | some tid =>
      if tid = expected then .ok (tid, rest)
      else .error (.TypeMismatch expected.toByte tb)

/-- `read_value_for_typeid`: carve the value bytes of one value of the given
wire type — its fixed size, or a tagged-varint length followed by that many
bytes. -/
def readValueForTypeid (tid : TypeId) (data : List Nat) :
    Except ParseErrorKind (List Nat × List Nat) :=
  match tid.lengthClass with
  | .fixed n => readN n data
  | .varsize =>
    match readTaggedVarintLength data with
    | .error e => .error e
    | .ok (len, rest) => readN len rest

/-- `parse_value_for_typeid`, parameterized by the element parser `pv`
standing for `T::parse_value`: carve, then parse the carved slice. -/
def parseVFTWith (tid : TypeId) (pv : List Nat → PRes RVal) (data : List Nat) :
    PRes (RVal × List Nat) :=
  match readValueForTypeid tid data with
  | .error e => some (.error e)
  | .ok (content, rest) =>
    match pv content with
    | none => none
    | some (.error e) => some (.error e)
    | some (.ok v) => some (.ok (v, rest))

/-- `parse_tlv`, parameterized by the value parser: type byte, then carve and
parse. -/
def parseTLVWith (tid : TypeId) (pv : List Nat → PRes RVal) (data : List Nat) :
    PRes (RVal × List Nat) :=
  match readForType tid data with
  | .error e => some (.error e)
  | .ok (_, rest) => parseVFTWith tid pv rest

/-- The UTF-8 validity check performed by `String::from_utf8` /
`str::from_utf8` (the shortest-form, surrogate-free encoding of scalar
values). -/
def validUtf8 : List Nat → Bool
  | [] => true
  | b :: rest =>
    if b < 0x80 then validUtf8 rest
    else if b < 0xC2 then false
    else if b ≤ 0xDF then
      match rest with
      | c1 :: rest' => decide (0x80 ≤ c1) && decide (c1 ≤ 0xBF) && validUtf8 rest'
      | [] => false
    else if b ≤ 0xEF then
      match rest with
      | c1 :: c2 :: rest' =>
        (if b = 0xE0 then decide (0xA0 ≤ c1) && decide (c1 ≤ 0xBF)
         else if b = 0xED then decide (0x80 ≤ c1) && decide (c1 ≤ 0x9F)
         else decide (0x80 ≤ c1) && decide (c1 ≤ 0xBF)) &&
        (decide (0x80 ≤ c2) && decide (c2 ≤ 0xBF)) && validUtf8 rest'
      | _ => false
    else if b ≤ 0xF4 then
      match rest with
      | c1 :: c2 :: c3 :: rest' =>
        (if b = 0xF0 then decide (0x90 ≤ c1) && decide (c1 ≤ 0xBF)
         else if b = 0xF4 then decide (0x80 ≤ c1) && decide (c1 ≤ 0x8F)
         else decide (0x80 ≤ c1) && decide (c1 ≤ 0xBF)) &&
        (decide (0x80 ≤ c2) && decide (c2 ≤ 0xBF)) &&
        (decide (0x80 ≤ c3) && decide (c3 ≤ 0xBF)) && validUtf8 rest'
      | _ => false
    else false

/-- The element loop of `Vec::parse_value`: parse elements until the content
slice is exhausted.  The loop is written with structural recursion on a fuel
counter; every call site passes `data.length + 1`, which (as every terminating
iteration of the source loop consumes at least one byte) suffices for every
execution of the source that returns, so `none` — fuel exhaustion — occurs
exactly when the source loop diverges: a zero-progress iteration of this pure
loop repeats the identical state forever. -/
def arrLoop (fuel : Nat) (tid : TypeId) (pv : List Nat → PRes RVal) (data : List Nat)
    (acc : List RVal) : PRes (List RVal) :=
  match fuel with
  | 0 => none
  | fuel + 1 =>
    if data.isEmpty then some (.ok acc.reverse)
    else
      match parseVFTWith tid pv data with
      | none => none
      | some (.error e) => some (.error e)
      | some (.ok (v, rest)) => arrLoop fuel tid pv rest (v :: acc)

/-- Key lookup in the accumulated entries, standing for
`HashMap::insert(..).is_some()` on the map built so far. -/
def containsKey (acc : List (RVal × RVal)) (k : RVal) : Bool :=
  acc.any (fun e => RVal.beq e.1 k)

/-- The entry loop of `HashMap::parse_value`: parse key/value pairs until the
content slice is exhausted, failing with `DuplicateMapKey` when an inserted
key is already present (`map.insert(..).is_some()`).  Fuel as in `arrLoop`;
note that a zero-progress iteration here inserts a key that the next
(identical) iteration immediately re-parses and rejects as a duplicate, so
every execution of the source map loop terminates and `data.length + 1` fuel
always suffices. -/
def mapLoop (fuel : Nat) (ktid vtid : TypeId) (pk pv : List Nat → PRes RVal) (data : List Nat)
    (acc : List (RVal × RVal)) : PRes (List (RVal × RVal)) :=
  match fuel with
  | 0 => none
  | fuel + 1 =>
    if data.isEmpty then some (.ok acc.reverse)
    else
      match parseVFTWith ktid pk data with
      | none => none
      | some (.error e) => some (.error e)
      | some (.ok (k, d1)) =>
        match parseVFTWith vtid pv d1 with
        | none => none
        | some (.error e) => some (.error e)
        | some (.ok (v, d2)) =>
          if containsKey acc k then some (.error .DuplicateMapKey)
          else mapLoop fuel ktid vtid pk pv d2 ((k, v) :: acc)

/-- The order check `field_id <= last_seen` shared by
`read_value_for_field_id` and `finish`. -/
def orderViolation (last : Option Nat) (fid : Nat) : Bool :=
  match last with
  | some l => decide (fid ≤ l)
  | none => false

/-- `StructParser::peek_field_id`: empty cursor means no more fields; a set
high bit is `InvalidFieldId`. -/
def peekFieldId (data : List Nat) : Except ParseErrorKind (Option Nat) :=
  match data with
  | [] => .ok none
  | b :: _ => if b % 256 ≥ 0x80 then .error (.InvalidFieldId b) else .ok (some b)

/-- `StructParser::skip_current_field`: consume the field id byte, the type
byte (which must be an assigned id), and the value bytes. -/
def skipCurrentField (data : List Nat) : Except ParseErrorKind (List Nat) :=
  match readByte data with
  | .error e => .error e
  | .ok (_, d1) =>
    match readByte d1 with
    | .error e => .error e
    | .ok (tb, d2) =>
      match TypeId.fromByte tb with
      | none => .error (.InvalidTypeId tb)
      | some tid =>
        match readValueForTypeid tid d2 with
        | .error e => .error e
        | .ok (_, d3) => .ok d3

/-- `StructParser::read_value_for_field_id`, parameterized by the declared
field type id and its value parser.  Returns the optional parsed value, the
remaining cursor, and the updated `last_seen_field_id`. -/
def readFieldLoop (fuel : Nat) (tid : TypeId) (pv : List Nat → PRes RVal) (target : Nat)
    (data : List Nat) (last : Option Nat) :
    PRes (Option RVal × List Nat × Option Nat) :=
  match fuel with
  | 0 => none
  | fuel + 1 =>
  match peekFieldId data with
  | .error e => some (.error e)
  | .ok none => some (.ok (none, data, last))
  | .ok (some fid) =>
    if orderViolation last fid then
      some (.error (.FieldOrderViolation (last.getD 0) fid))
    else if fid < target then
      match skipCurrentField data with
      | .error e => some (.error e)
      | .ok d' => readFieldLoop fuel tid pv target d' (some fid)
    else if fid = target then
      match readByte data with
      | .error e => some (.error e)
      | .ok (_, d1) =>
        match parseTLVWith tid pv d1 with
        | none => none
        | some (.error e) => some (.error e)
        | some (.ok (v, d3)) => some (.ok (some v, d3, some fid))
    else some (.ok (none, data, last))

/-- `StructParser::finish`: drain the cursor, still validating ordering.
Fuel as in `arrLoop`; a skip consumes at least two bytes, so
`data.length + 1` fuel always suffices and `finish` never diverges. -/
def finishLoop (fuel : Nat) (data : List Nat) (last : Option Nat) : PRes Unit :=
  match fuel with
  | 0 => none
  | fuel + 1 =>
  match peekFieldId data with
  | .error e => some (.error e)
  | .ok none => some (.ok ())
  | .ok (some fid) =>
    if orderViolation last fid then
      some (.error (.FieldOrderViolation (last.getD 0) fid))
    else
      match skipCurrentField data with
      | .error e => some (.error e)
      | .ok d' => finishLoop fuel d' (some fid)

/-- A field descriptor of the generated struct parser: field id, optionality,
declared type id, and the declared type's `parse_value`. -/
abbrev FieldDesc := Nat × Bool × TypeId × (List Nat → PRes RVal)

/-- The sequence of `read_value_for_field_id` calls of the generated
`parse_value`, one per declared field in declaration (ascending-id) order. -/
def runFields (descs : List FieldDesc) (data : List Nat) (last : Option Nat) :
    PRes (List (Option RVal) × List Nat × Option Nat) :=
  match descs with
  | [] => some (.ok ([], data, last))
  | (id, _, tid, pv) :: descs' =>
    match readFieldLoop (data.length + 1) tid pv id data last with
    | none => none
    | some (.error e) => some (.error e)
    | some (.ok (o, d', l')) =>
      match runFields descs' d' l' with
      | none => none
      | some (.error e) => some (.error e)
      | some (.ok (os, d'', l'')) => some (.ok (o :: os, d'', l''))

/-- The `FieldValue::from_option` conversions of the generated `parse_value`:
a missing required field is `MissingRequiredField`; the surviving fields are
reassembled as the struct value. -/
def convertFields (descs : List FieldDesc) (os : List (Option RVal)) :
    Except ParseErrorKind (List (Nat × TypeId × Option RVal)) :=
  match descs, os with
  | [], _ => .ok []
  | (_, false, _, _) :: _, none :: _ => .error .MissingRequiredField
  | (id, _, tid, _) :: descs', o :: os' =>
    match convertFields descs' os' with
    | .error e => .error e
    | .ok rest => .ok ((id, tid, o) :: rest)
  | _ :: _, [] => .error .MissingRequiredField

/-- The generated struct `parse_value`: run the field cursor over the declared
fields, call `finish`, then convert the collected options. -/
def structParseWith (descs : List FieldDesc) (data : List Nat) : PRes RVal :=
  match runFields descs data none with
  | none => none
  | some (.error e) => some (.error e)
  | some (.ok (os, d', l')) =>
    match finishLoop (d'.length + 1) d' l' with
    | none => none
    | some (.error e) => some (.error e)
    | some (.ok ()) =>
      match convertFields descs os with
      | .error e => some (.error e)
      | .ok fields => some (.ok (.vstruct fields))

mutual

/-- `Relish::parse_value` for each supported type (the impls in
`src/types.rs` and the code generated by `relish_derive/src/lib.rs`).  The
argument is the carved value slice (without type byte or length prefix). -/
def parseValue : RTy → List Nat → PRes RVal
  | .null, _ => some (.ok .vnull)
  | .boolT, data =>
    match data with
    | [] => none
    | b :: _ =>
      if b = 0x00 then some (.ok (.vbool false))
      else if b = 0xFF then some (.ok (.vbool true))
      else some (.error (.InvalidBoolValue b))
  | .num n, data =>
    match readN n.width data with
    | .error e => some (.error e)
    | .ok (bytes, _) => some (.ok (.vnum n (fromLeBytes bytes)))
  | .str, data =>
    if validUtf8 data then some (.ok (.vstr data)) else some (.error .InvalidUtf8)
  | .bytes, data =>
    match readForType .u8 data with
    | .error e => some (.error e)
    | .ok (_, rest) => some (.ok (.vbytes rest))
  | .arr elem, data =>
    match readForType elem.typeId data with
    | .error e => some (.error e)
    | .ok (_, rest) =>
      match arrLoop (rest.length + 1) elem.typeId (parseValue elem) rest [] with
      | none => none
      | some (.error e) => some (.error e)
      | some (.ok es) => some (.ok (.varr elem.typeId es))
  | .map kt vt, data =>
    match readForType kt.typeId data with
    | .error e => some (.error e)
    | .ok (_, d1) =>
      match readForType vt.typeId d1 with
      | .error e => some (.error e)
      | .ok (_, d2) =>
        match mapLoop (d2.length + 1) kt.typeId vt.typeId (parseValue kt) (parseValue vt) d2 [] with
        | none => none
        | some (.error e) => some (.error e)
        | some (.ok entries) => some (.ok (.vmap kt.typeId vt.typeId entries))
  | .struct fs, data => structParseWith (fieldDescs fs) data
  | .enum vs, data =>
    match readByte data with
    | .error e => some (.error e)
    | .ok (vid, rest) =>
      if vid % 256 ≥ 0x80 then some (.error (.InvalidFieldId vid))
      else
        match enumDispatch vs vid rest with
        | none => none
        | some (.error e) => some (.error e)
        | some (.ok (tid, v, rest')) =>
          if rest'.isEmpty then some (.ok (.venum vid tid v))
          else some (.error (.ExtraData rest'.length))

/-- The descriptors handed to the generated struct parser (one
`read_value_for_field_id::<T_i>` per declared field). -/
def fieldDescs : List (Nat × Bool × RTy) → List FieldDesc
  | [] => []
  | (id, opt, ty) :: fs => (id, opt, ty.typeId, parseValue ty) :: fieldDescs fs

/-- The `match field_id` dispatch of the generated enum parser: the matching
variant parses its payload with `parse_tlv`; no match is `UnknownVariant`. -/
def enumDispatch : List (Nat × RTy) → Nat → List Nat → PRes (TypeId × RVal × List Nat)
  | [], vid, _ => some (.error (.UnknownVariant vid))
  | (id, ty) :: vs, vid, data =>
    if vid = id then
      match parseTLVWith ty.typeId (parseValue ty) data with
      | none => none
      | some (.error e) => some (.error e)
      | some (.ok (v, rest)) => some (.ok (ty.typeId, v, rest))
    else enumDispatch vs vid data

end

/-- `parse` (`src/parse.rs`): type byte, carve, `parse_value`, then reject
leftover bytes with `ExtraData`. -/
def parse (t : RTy) (data : List Nat) : PRes RVal :=
  match parseTLVWith t.typeId (parseValue t) data with
  | none => none
  | some (.error e) => some (.error e)
  | some (.ok (v, rest)) =>
    if rest.isEmpty then some (.ok v)
    else some (.error (.ExtraData rest.length))

end Relish

namespace Relish

/-! ## Well-formedness

`RTy.wf` is declaration validity per the derivation contract: the generated
code always processes struct fields and enum variants sorted by id, ids are
unique (the generator rejects duplicates), and ids carry a clear high bit
(declarations with ids ≥ 0x80 are invalid).  `valWf t v` says `v` is a value
of type `t` as produced by the Rust constructors: numeric bit patterns fit
their width, strings are valid UTF-8, byte arrays hold bytes, container tags
match the element types, struct fields align with the declaration (required
fields present), enum payloads match their variant.  `noDeg v` excludes the
zero-size-element containers (`Vec<Null>`, `HashMap<Null, Null>`) whose wire
image forgets their contents. -/

/-- Strictly ascending ids of a struct schema, all below `0x80`. -/
def fieldIdsOk : Option Nat → List (Nat × Bool × RTy) → Bool
  | _, [] => true
  | prev, (id, _, _) :: fs =>
    (match prev with
     | none => decide (id < 0x80)
     | some p => decide (p < id) && decide (id < 0x80)) && fieldIdsOk (some id) fs

/-- Strictly ascending variant ids of an enum schema, all below `0x80`. -/
def variantIdsOk : Option Nat → List (Nat × RTy) → Bool
  | _, [] => true
  | prev, (id, _) :: vs =>
    (match prev with
     | none => decide (id < 0x80)
     | some p => decide (p < id) && decide (id < 0x80)) && variantIdsOk (some id) vs

mutual

/-- Declaration validity of a supported type. -/
def RTy.wf : RTy → Bool
  | .null | .boolT | .num _ | .str | .bytes => true
  | .arr e => e.wf
  | .map k v => k.wf && v.wf
  | .struct fs => fieldIdsOk none fs && RTy.wfFields fs
  | .enum vs => variantIdsOk none vs && RTy.wfVariants vs

def RTy.wfFields : List (Nat × Bool × RTy) → Bool
  | [] => true
  | (_, _, ty) :: fs => ty.wf && RTy.wfFields fs

def RTy.wfVariants : List (Nat × RTy) → Bool
  | [] => true
  | (_, ty) :: vs => ty.wf && RTy.wfVariants vs

end

/-- A key is absent from all later entries (first-argument orientation of
`RVal.beq`, matching the duplicate check of the parse loop). -/
def keyFresh (k : RVal) (rest : List (RVal × RVal)) : Bool :=
  rest.all (fun e => !(RVal.beq k e.1))

/-- No key occurs twice (the `HashMap` invariant of a decoded map). -/
def nodupKeys : List (RVal × RVal) → Bool
  | [] => true
  | (k, _) :: rest => keyFresh k rest && nodupKeys rest

/-- The variant a generated enum `parse_value` dispatches to: the first
declared variant carrying the id (ids are unique in a valid declaration). -/
def enumFind : List (Nat × RTy) → Nat → Option RTy
  | [], _ => none
  | (id, ty) :: vs, vid => if vid = id then some ty else enumFind vs vid

mutual

/-- `v` is a well-formed value of type `t`. -/
def valWf : RTy → RVal → Bool
  | .null, .vnull => true
  | .boolT, .vbool _ => true
  | .num n, .vnum m bits => n == m && decide (bits < 256 ^ n.width)
  | .str, .vstr s => validUtf8 s
  | .bytes, .vbytes bs => bs.all (fun b => decide (b < 256))
  | .arr e, .varr tid es => tid == e.typeId && valWfElems e es
  | .map k v, .vmap kt vt entries =>
      kt == k.typeId && vt == v.typeId && valWfEntries k v entries && nodupKeys entries
  | .struct fs, .vstruct vfs => valWfFields fs vfs
  | .enum vs, .venum vid tid pv =>
      (match enumFind vs vid with
       | none => false
       | some ty => tid == ty.typeId && valWf ty pv)
  | _, _ => false
  termination_by structural _ v => v

def valWfElems (e : RTy) : List RVal → Bool
  | [] => true
  | x :: xs => valWf e x && valWfElems e xs
  termination_by structural xs => xs

def valWfEntries (k v : RTy) : List (RVal × RVal) → Bool
  | [] => true
  | (kx, vx) :: xs => valWf k kx && valWf v vx && valWfEntries k v xs
  termination_by structural xs => xs

def valWfFields : List (Nat × Bool × RTy) → List (Nat × TypeId × Option RVal) → Bool
  | [], [] => true
  | (id, opt, ty) :: fs, (id', tid, o) :: vfs =>
      id' == id && tid == ty.typeId &&
      (match o with
       | none => opt
       | some w => valWf ty w) && valWfFields fs vfs
  | _, _ => false
  termination_by structural _ vfs => vfs

end

mutual

/-- `v` contains no nonempty `Null`-element array and no nonempty map with
both key and value type `Null` (such containers have empty wire content and
decode back as empty). -/
def noDeg : RVal → Bool
  | .varr tid es => (!(tid == TypeId.null) || es.isEmpty) && noDegElems es
  | .vmap kt vt entries =>
      (!(kt == TypeId.null && vt == TypeId.null) || entries.isEmpty) && noDegEntries entries
  | .vstruct fs => noDegFields fs
  | .venum _ _ v => noDeg v
  | _ => true

def noDegElems : List RVal → Bool
  | [] => true
  | x :: xs => noDeg x && noDegElems xs

def noDegEntries : List (RVal × RVal) → Bool
  | [] => true
  | (k, v) :: xs => noDeg k && noDeg v && noDegEntries xs

def noDegFields : List (Nat × TypeId × Option RVal) → Bool
  | [] => true
  | (_, _, none) :: xs => noDegFields xs
  | (_, _, some v) :: xs => noDeg v && noDegFields xs

end

end Relish

namespace Relish

/-! ## Supporting lemmas: carves, type bytes, varint write/read agreement -/

theorem fromByte_toByte (tid : TypeId) : TypeId.fromByte tid.toByte = some tid := by
  cases tid <;> rfl

theorem toByte_lt (tid : TypeId) : tid.toByte < 0x80 := by
  cases tid <;> simp [TypeId.toByte]

theorem readN_exact (n : Nat) (bs extra : List Nat) (hn : n = bs.length) :
    readN n (bs ++ extra) = .ok (bs, extra) := by
  subst hn
  rw [readN, if_neg (by simp)]
  rw [List.take_left, List.drop_left]

theorem writeTaggedVarint_read (len : Nat) (p : List Nat)
    (h : writeTaggedVarintLength len = .ok p) (extra : List Nat) :
    readTaggedVarintLength (p ++ extra) = .ok (len, extra) := by
  unfold writeTaggedVarintLength at h
  by_cases h1 : len > 2 ^ 31 - 1
  · rw [if_pos h1] at h; exact absurd h (by simp)
  · rw [if_neg h1] at h
    by_cases h2 : len < 128
    · rw [if_pos h2] at h
      have hp : p = [(len * 2) % 256] := by
        injection h with h; exact h.symm
      subst hp
      have hes : (len * 2) % 256 = len * 2 := by omega
      simp [readTaggedVarintLength, readByte, hes]
    · rw [if_neg h2] at h
      have hp : p = leBytes 4 (len * 2 + 1) := by
        injection h with h; exact h.symm
      subst hp
      have h2' : (len * 2 + 1) / 2 = len := by omega
      rw [read_long_form (len * 2 + 1) (by omega) (by omega) extra, h2']

theorem writeTaggedVarint_length (len : Nat) (p : List Nat)
    (h : writeTaggedVarintLength len = .ok p) :
    p.length = taggedVarintLengthSize len := by
  unfold writeTaggedVarintLength at h
  by_cases h1 : len > 2 ^ 31 - 1
  · rw [if_pos h1] at h; exact absurd h (by simp)
  · rw [if_neg h1] at h
    by_cases h2 : len < 128
    · rw [if_pos h2] at h
      have hp : p = [(len * 2) % 256] := by injection h with h; exact h.symm
      subst hp; simp [taggedVarintLengthSize, h2]
    · rw [if_neg h2] at h
      have hp : p = leBytes 4 (len * 2 + 1) := by injection h with h; exact h.symm
      subst hp; simp [taggedVarintLengthSize, h2, leBytes_length]

/-! ## Length agreement: `write_value` produces exactly `value_length` bytes -/

mutual

theorem writeValue_length (v : RVal) (bs : List Nat) (h : writeValue v = .ok bs) :
    bs.length = valueLength v := by
  cases v with
  | vnull =>
    simp [writeValue] at h
    simp [← h, valueLength]
  | vbool b =>
    simp [writeValue] at h
    simp [← h, valueLength]
  | vnum n bits =>
    simp [writeValue] at h
    simp [← h, valueLength, leBytes_length]
  | vstr s =>
    rw [writeValue] at h
    split at h
    · exact absurd h (by simp)
    · next p hp =>
      injection h with h
      subst h
      simp [valueLength, writeTaggedVarint_length _ _ hp]
  | vbytes bsv =>
    rw [writeValue] at h
    split at h
    · exact absurd h (by simp)
    · next p hp =>
      injection h with h
      subst h
      simp [valueLength, writeTaggedVarint_length _ _ hp, TypeId.toByte]
      omega
  | varr tid es =>
    rw [writeValue] at h
    split at h
    · exact absurd h (by simp)
    · next p hp =>
      split at h
      · exact absurd h (by simp)
      · next body hbody =>
        injection h with h
        subst h
        simp [valueLength, writeTaggedVarint_length _ _ hp,
          writeElems_length es body hbody]
        omega
  | vmap kt vt entries =>
    rw [writeValue] at h
    split at h
    · exact absurd h (by simp)
    · next p hp =>
      split at h
      · exact absurd h (by simp)
      · next body hbody =>
        injection h with h
        subst h
        simp [valueLength, writeTaggedVarint_length _ _ hp,
          writeEntries_length entries body hbody]
        omega
  | vstruct fs =>
    rw [writeValue] at h
    split at h
    · exact absurd h (by simp)
    · next p hp =>
      split at h
      · exact absurd h (by simp)
      · next body hbody =>
        injection h with h
        subst h
        simp [valueLength, writeTaggedVarint_length _ _ hp,
          writeFieldRecords_length fs body hbody]
  | venum vid tid pv =>
    rw [writeValue] at h
    split at h
    · exact absurd h (by simp)
    · next p hp =>
      split at h
      · exact absurd h (by simp)
      · next body hbody =>
        injection h with h
        subst h
        simp [valueLength, writeTaggedVarint_length _ _ hp,
          writeValue_length pv body hbody]
        omega

theorem writeElems_length (es : List RVal) (bs : List Nat) (h : writeElems es = .ok bs) :
    bs.length = elemsLength es := by
  cases es with
  | nil =>
    simp [writeElems] at h
    simp [← h, elemsLength]
  | cons e es' =>
    rw [writeElems] at h
    split at h
    · exact absurd h (by simp)
    · next b hb =>
      split at h
      · exact absurd h (by simp)
      · next rest hrest =>
        injection h with h
        subst h
        simp [elemsLength, writeValue_length e b hb, writeElems_length es' rest hrest]

theorem writeEntries_length (entries : List (RVal × RVal)) (bs : List Nat)
    (h : writeEntries entries = .ok bs) : bs.length = entriesLength entries := by
  cases entries with
  | nil =>
    simp [writeEntries] at h
    simp [← h, entriesLength]
  | cons kv rest =>
    obtain ⟨k, v⟩ := kv
    rw [writeEntries] at h
    split at h
    · exact absurd h (by simp)
    · next kb hkb =>
      split at h
      · exact absurd h (by simp)
      · next vb hvb =>
        split at h
        · exact absurd h (by simp)
        · next bsr hbsr =>
          injection h with h
          subst h
          simp [entriesLength, writeValue_length k kb hkb, writeValue_length v vb hvb,
            writeEntries_length rest bsr hbsr]
          omega

theorem writeFieldRecords_length (fs : List (Nat × TypeId × Option RVal)) (bs : List Nat)
    (h : writeFieldRecords fs = .ok bs) : bs.length = structContentLength fs := by
  cases fs with
  | nil =>
    simp [writeFieldRecords] at h
    simp [← h, structContentLength]
  | cons f fs' =>
    obtain ⟨id, tid, o⟩ := f
    cases o with
    | none =>
      rw [writeFieldRecords] at h
      simp [structContentLength, writeFieldRecords_length fs' bs h]
    | some v =>
      rw [writeFieldRecords] at h
      split at h
      · exact absurd h (by simp)
      · next b hb =>
        split at h
        · exact absurd h (by simp)
        · next rest hrest =>
          injection h with h
          subst h
          simp [structContentLength, writeValue_length v b hb,
            writeFieldRecords_length fs' rest hrest]
          omega

end

end Relish

namespace Relish

/-! ## More supporting lemmas for the round-trip proof -/

theorem taggedVarintLengthSize_pos (len : Nat) : 0 < taggedVarintLengthSize len := by
  unfold taggedVarintLengthSize
  split <;> omega

theorem numWidth_pos (n : NumTy) : 0 < n.width := by
  cases n <;> simp [NumTy.width]

theorem valueLength_pos (t : RTy) (v : RVal) (hwf : valWf t v = true)
    (ht : t ≠ RTy.null) : 0 < valueLength v := by
  cases t with
  | null => exact absurd rfl ht
  | num n =>
    cases v <;> simp [valWf] at hwf
    next m bits =>
      obtain ⟨rfl, -⟩ := hwf
      simp only [valueLength]
      exact numWidth_pos n
  | _ =>
    cases v <;> simp [valWf] at hwf
    all_goals
      simp only [valueLength, taggedVarintLengthSize]
      first
        | omega
        | (split <;> omega)

theorem typeId_eq_null (t : RTy) (h : t.typeId = TypeId.null) : t = RTy.null := by
  cases t <;> simp [RTy.typeId] at h ⊢
  next n => cases n <;> simp [NumTy.typeId] at h

theorem num_lengthClass (n : NumTy) : n.typeId.lengthClass = .fixed n.width := by
  cases n <;> rfl

/-- `fieldIdsOk (some p) fs` bounds every id in `fs` strictly from below. -/
theorem fieldIdsOk_lt (p : Nat) (fs : List (Nat × Bool × RTy))
    (h : fieldIdsOk (some p) fs = true) :
    ∀ f ∈ fs, p < f.1 ∧ f.1 < 0x80 := by
  induction fs generalizing p with
  | nil => intro f hf; exact absurd hf (by simp)
  | cons g fs ih =>
    obtain ⟨id, opt, ty⟩ := g
    simp only [fieldIdsOk, Bool.and_eq_true, decide_eq_true_eq] at h
    intro f hf
    rcases List.mem_cons.mp hf with hf | hf
    · subst hf; exact ⟨h.1.1, h.1.2⟩
    · have := ih id h.2 f hf
      exact ⟨Nat.lt_trans h.1.1 this.1, this.2⟩

/-- Any tail bound in `fieldIdsOk` can be relaxed downward. -/
theorem fieldIdsOk_mono (p q : Nat) (fs : List (Nat × Bool × RTy)) (hpq : q ≤ p)
    (h : fieldIdsOk (some p) fs = true) : fieldIdsOk (some q) fs = true := by
  cases fs with
  | nil => rfl
  | cons g fs =>
    obtain ⟨id, opt, ty⟩ := g
    simp only [fieldIdsOk, Bool.and_eq_true, decide_eq_true_eq] at h ⊢
    exact ⟨⟨by omega, h.1.2⟩, h.2⟩

/-- The ids of present fields of a struct value. -/
def presentIds : List (Nat × TypeId × Option RVal) → List Nat
  | [] => []
  | (_, _, none) :: fs => presentIds fs
  | (id, _, some _) :: fs => id :: presentIds fs

/-- The `last_seen_field_id` after the cursor has consumed the present
records of `vfs`, starting from `last`. -/
def finalLast : List (Nat × TypeId × Option RVal) → Option Nat → Option Nat
  | [], last => last
  | (_, _, none) :: fs, last => finalLast fs last
  | (id, _, some _) :: fs, _ => finalLast fs (some id)

/-- The options the driver collects for a struct value. -/
def fieldOptions (vfs : List (Nat × TypeId × Option RVal)) : List (Option RVal) :=
  vfs.map (fun f => f.2.2)

/-- A nonempty record stream starts with the id of a present field. -/
theorem writeFieldRecords_head (vfs : List (Nat × TypeId × Option RVal)) (bs : List Nat)
    (h : writeFieldRecords vfs = .ok bs) (hne : bs ≠ []) :
    ∃ id, bs.head? = some id ∧ id ∈ presentIds vfs := by
  induction vfs generalizing bs with
  | nil =>
    simp [writeFieldRecords] at h
    exact absurd h hne
  | cons f vfs ih =>
    obtain ⟨id, tid, o⟩ := f
    cases o with
    | none =>
      rw [writeFieldRecords] at h
      obtain ⟨i, hi, hmem⟩ := ih bs h hne
      exact ⟨i, hi, by simp [presentIds, hmem]⟩
    | some v =>
      rw [writeFieldRecords] at h
      split at h
      · exact absurd h (by simp)
      · next b hb =>
        split at h
        · exact absurd h (by simp)
        · next rest hrest =>
          injection h with h
          subst h
          exact ⟨id, by simp, by simp [presentIds]⟩

/-- Unfolding equations for `valWfFields` (stated explicitly so rewriting does
not depend on kernel reduction under a free `Option`). -/
theorem valWfFields_cons (id : Nat) (opt : Bool) (ty : RTy) (id' : Nat) (tid : TypeId)
    (o : Option RVal) (fs : List (Nat × Bool × RTy)) (vfs : List (Nat × TypeId × Option RVal)) :
    valWfFields ((id, opt, ty) :: fs) ((id', tid, o) :: vfs) =
      (id' == id && tid == ty.typeId &&
        (match o with | none => opt | some w => valWf ty w) && valWfFields fs vfs) := by
  cases o <;> rfl

theorem valWfFields_nil_cons (g : Nat × TypeId × Option RVal)
    (vfs : List (Nat × TypeId × Option RVal)) :
    valWfFields [] (g :: vfs) = false := by
  obtain ⟨a, b, o⟩ := g
  cases o <;> rfl

theorem valWfFields_cons_nil (f : Nat × Bool × RTy) (fs : List (Nat × Bool × RTy)) :
    valWfFields (f :: fs) [] = false := rfl

/-- Present ids come from the declared ids (under value well-formedness). -/
theorem presentIds_sub (fs : List (Nat × Bool × RTy)) (vfs : List (Nat × TypeId × Option RVal))
    (hwf : valWfFields fs vfs = true) :
    ∀ i ∈ presentIds vfs, ∃ f ∈ fs, f.1 = i := by
  induction fs generalizing vfs with
  | nil =>
    cases vfs with
    | nil => intro i hi; exact absurd hi (by simp [presentIds])
    | cons g vfs => rw [valWfFields_nil_cons] at hwf; exact absurd hwf (by simp)
  | cons f fs ih =>
    obtain ⟨id, opt, ty⟩ := f
    cases vfs with
    | nil => rw [valWfFields_cons_nil] at hwf; exact absurd hwf (by simp)
    | cons g vfs =>
      obtain ⟨id', tid, o⟩ := g
      rw [valWfFields_cons] at hwf
      simp only [Bool.and_eq_true, beq_iff_eq] at hwf
      obtain ⟨⟨⟨hid, htid⟩, ho⟩, hrest⟩ := hwf
      intro i hi
      cases o with
      | none =>
        simp only [presentIds] at hi
        obtain ⟨f, hf, hfi⟩ := ih vfs hrest i hi
        exact ⟨f, by simp [hf], hfi⟩
      | some w =>
        simp only [presentIds, List.mem_cons] at hi
        rcases hi with hi | hi
        · exact ⟨(id, opt, ty), by simp, by simp [hid, hi]⟩
        · obtain ⟨f, hf, hfi⟩ := ih vfs hrest i hi
          exact ⟨f, by simp [hf], hfi⟩

/-- The generated `from_option` conversions succeed on a well-formed value and
reassemble exactly the original struct fields. -/
theorem convertFields_ok (fs : List (Nat × Bool × RTy)) (vfs : List (Nat × TypeId × Option RVal))
    (hwf : valWfFields fs vfs = true) :
    convertFields (fieldDescs fs) (fieldOptions vfs) = .ok vfs := by
  induction fs generalizing vfs with
  | nil =>
    cases vfs with
    | nil => rfl
    | cons g vfs => rw [valWfFields_nil_cons] at hwf; exact absurd hwf (by simp)
  | cons f fs ih =>
    obtain ⟨id, opt, ty⟩ := f
    cases vfs with
    | nil => rw [valWfFields_cons_nil] at hwf; exact absurd hwf (by simp)
    | cons g vfs =>
      obtain ⟨id', tid, o⟩ := g
      rw [valWfFields_cons] at hwf
      simp only [Bool.and_eq_true, beq_iff_eq] at hwf
      obtain ⟨⟨⟨hid, htid⟩, ho⟩, hrest⟩ := hwf
      subst hid htid
      have ihh := ih vfs hrest
      simp only [fieldOptions, List.map_cons] at *
      cases o with
      | none =>
        cases opt with
        | false => simp at ho
        | true =>
          simp only [fieldDescs, convertFields]
          rw [ihh]
      | some w =>
        cases opt with
        | false =>
          simp only [fieldDescs, convertFields]
          rw [ihh]
        | true =>
          simp only [fieldDescs, convertFields]
          rw [ihh]

/-- When the dispatched variant exists, `enumDispatch` runs exactly its
`parse_tlv`. -/
theorem enumDispatch_found (vs : List (Nat × RTy)) (vid : Nat) (ty : RTy) (data : List Nat)
    (hfind : enumFind vs vid = some ty) :
    enumDispatch vs vid data =
      match parseTLVWith ty.typeId (parseValue ty) data with
      | none => none
      | some (.error e) => some (.error e)
      | some (.ok (v, rest)) => some (.ok (ty.typeId, v, rest)) := by
  induction vs with
  | nil => simp [enumFind] at hfind
  | cons g vs ih =>
    obtain ⟨id, ty'⟩ := g
    by_cases hv : vid = id
    · rw [enumFind, if_pos hv] at hfind
      injection hfind with hfind
      subst hfind
      rw [enumDispatch, if_pos hv]
    · rw [enumFind, if_neg hv] at hfind
      rw [enumDispatch, if_neg hv]
      exact ih hfind

end Relish

namespace Relish

/-! ## Carve and cursor evaluation lemmas -/

theorem isEmpty_false_of_ne {α : Type} (l : List α) (h : l ≠ []) : l.isEmpty = false := by
  cases l with
  | nil => exact absurd rfl h
  | cons a l => rfl

theorem carve_fixed (tid : TypeId) (n : Nat) (hf : tid.lengthClass = .fixed n)
    (content extra : List Nat) (hlen : n = content.length) :
    readValueForTypeid tid (content ++ extra) = .ok (content, extra) := by
  rw [readValueForTypeid, hf]
  exact readN_exact n content extra hlen

theorem carve_varsize (tid : TypeId) (hvs : tid.lengthClass = .varsize) (len : Nat)
    (p content extra : List Nat) (hp : writeTaggedVarintLength len = .ok p)
    (hlen : len = content.length) :
    readValueForTypeid tid ((p ++ content) ++ extra) = .ok (content, extra) := by
  rw [readValueForTypeid, hvs, List.append_assoc, writeTaggedVarint_read len p hp]
  exact readN_exact len content extra hlen

theorem readForType_toByte (tid : TypeId) (rest : List Nat) :
    readForType tid (tid.toByte :: rest) = .ok (tid, rest) := by
  simp [readForType, readByte, fromByte_toByte]

theorem peekFieldId_small (id : Nat) (h : id < 0x80) (rest : List Nat) :
    peekFieldId (id :: rest) = .ok (some id) := by
  rw [peekFieldId, if_neg (by omega)]

/-- Relation between the cursor's `last_seen_field_id` and the bound tracked
through a schema's `fieldIdsOk`. -/
def lastLe : Option Nat → Option Nat → Prop
  | none, _ => True
  | some l, some p => l ≤ p
  | some _, none => False

theorem orderViolation_false (last prev : Option Nat) (id : Nat)
    (h : lastLe last prev) (hp : ∀ p, prev = some p → p < id) :
    orderViolation last id = false := by
  cases last with
  | none => rfl
  | some l =>
    cases prev with
    | none => exact absurd h (by simp [lastLe])
    | some p =>
      simp only [lastLe] at h
      have := hp p rfl
      simp [orderViolation]
      omega

theorem variantIdsOk_small (prev : Option Nat) (vs : List (Nat × RTy))
    (h : variantIdsOk prev vs = true) : ∀ g ∈ vs, g.1 < 0x80 := by
  induction vs generalizing prev with
  | nil => intro g hg; exact absurd hg (by simp)
  | cons g0 vs ih =>
    obtain ⟨id, ty⟩ := g0
    intro g hg
    rcases List.mem_cons.mp hg with hg | hg
    · subst hg
      cases prev <;> simp only [variantIdsOk, Bool.and_eq_true, decide_eq_true_eq] at h
      · exact h.1
      · exact h.1.2
    · cases prev <;> simp only [variantIdsOk, Bool.and_eq_true, decide_eq_true_eq] at h
      · exact ih (some id) h.2 g hg
      · exact ih (some id) h.2 g hg

theorem enumFind_mem (vs : List (Nat × RTy)) (vid : Nat) (ty : RTy)
    (h : enumFind vs vid = some ty) : (vid, ty) ∈ vs := by
  induction vs with
  | nil => simp [enumFind] at h
  | cons g vs ih =>
    obtain ⟨id, ty'⟩ := g
    by_cases hv : vid = id
    · rw [enumFind, if_pos hv] at h
      injection h with h
      subst h hv
      exact List.mem_cons_self _ _
    · rw [enumFind, if_neg hv] at h
      exact List.mem_cons_of_mem _ (ih h)

theorem wfVariants_mem (vs : List (Nat × RTy)) (h : RTy.wfVariants vs = true) :
    ∀ g ∈ vs, RTy.wf g.2 = true := by
  induction vs with
  | nil => intro g hg; exact absurd hg (by simp)
  | cons g0 vs ih =>
    obtain ⟨id, ty⟩ := g0
    simp only [RTy.wfVariants, Bool.and_eq_true] at h
    intro g hg
    rcases List.mem_cons.mp hg with hg | hg
    · subst hg; exact h.1
    · exact ih h.2 g hg

end Relish

namespace Relish

theorem fieldDescs_cons (id : Nat) (opt : Bool) (ty : RTy) (fs : List (Nat × Bool × RTy)) :
    fieldDescs ((id, opt, ty) :: fs) = (id, opt, ty.typeId, parseValue ty) :: fieldDescs fs :=
  rfl

theorem runFields_nil (data : List Nat) (last : Option Nat) :
    runFields [] data last = some (.ok ([], data, last)) := rfl

theorem runFields_cons (id : Nat) (opt : Bool) (tid : TypeId) (pv : List Nat → PRes RVal)
    (descs : List FieldDesc) (data : List Nat) (last : Option Nat) :
    runFields ((id, opt, tid, pv) :: descs) data last =
      match readFieldLoop (data.length + 1) tid pv id data last with
      | none => none
      | some (.error e) => some (.error e)
      | some (.ok (o, d', l')) =>
        match runFields descs d' l' with
        | none => none
        | some (.error e) => some (.error e)
        | some (.ok (os, d'', l'')) => some (.ok (o :: os, d'', l'')) := rfl

end Relish

namespace Relish

/-! Single-step evaluation lemmas for the field cursor. -/

theorem readFieldLoop_empty (fuel : Nat) (tid : TypeId) (pv : List Nat → PRes RVal)
    (target : Nat) (last : Option Nat) :
    readFieldLoop (fuel + 1) tid pv target [] last = some (.ok (none, [], last)) := by
  simp [readFieldLoop, peekFieldId]

theorem readFieldLoop_consume (fuel : Nat) (tid : TypeId) (pv : List Nat → PRes RVal)
    (target : Nat) (rest : List Nat) (last : Option Nat)
    (h128 : target < 0x80) (hviol : orderViolation last target = false)
    (v : RVal) (d3 : List Nat) (htlv : parseTLVWith tid pv rest = some (.ok (v, d3))) :
    readFieldLoop (fuel + 1) tid pv target (target :: rest) last =
      some (.ok (some v, d3, some target)) := by
  simp only [readFieldLoop, peekFieldId_small target h128, hviol, Bool.false_eq_true,
    if_false, lt_irrefl, readByte, htlv]
  simp

theorem readFieldLoop_absent (fuel : Nat) (tid : TypeId) (pv : List Nat → PRes RVal)
    (target : Nat) (j : Nat) (tl : List Nat) (last : Option Nat)
    (hj128 : j < 0x80) (hviol : orderViolation last j = false) (hgt : target < j) :
    readFieldLoop (fuel + 1) tid pv target (j :: tl) last =
      some (.ok (none, j :: tl, last)) := by
  simp only [readFieldLoop, peekFieldId_small j hj128, hviol, Bool.false_eq_true, if_false]
  rw [if_neg (by omega), if_neg (by omega)]

end Relish

namespace Relish

mutual

theorem rt_vft (t : RTy) (v : RVal) (bs extra : List Nat)
    (hty : RTy.wf t = true) (hwf : valWf t v = true) (hnd : noDeg v = true)
    (hw : writeValue v = .ok bs) :
    parseVFTWith t.typeId (parseValue t) (bs ++ extra) = some (.ok (v, extra)) := by
  cases t with
  | null =>
    cases v <;> simp [valWf] at hwf
    simp only [writeValue] at hw
    injection hw with hw
    subst hw
    have hc : readValueForTypeid (RTy.null).typeId ([] ++ extra) = .ok ([], extra) :=
      carve_fixed (RTy.null).typeId 0 (by rfl) [] extra rfl
    simp only [parseVFTWith, hc, parseValue]
  | boolT =>
    cases v <;> simp [valWf] at hwf
    next b =>
      simp only [writeValue] at hw
      injection hw with hw
      subst hw
      have hc : readValueForTypeid (RTy.boolT).typeId
          ([if b then 255 else 0] ++ extra) = .ok ([if b then 255 else 0], extra) :=
        carve_fixed (RTy.boolT).typeId 1 (by rfl) _ extra rfl
      simp only [parseVFTWith, hc]
      cases b <;> simp [parseValue]
  | num n =>
    cases v <;> simp [valWf] at hwf
    next m bits =>
      obtain ⟨rfl, hlt⟩ := hwf
      simp only [writeValue] at hw
      injection hw with hw
      subst hw
      have hc : readValueForTypeid (RTy.num n).typeId (leBytes n.width bits ++ extra) =
          .ok (leBytes n.width bits, extra) :=
        carve_fixed _ n.width (num_lengthClass n) _ extra (leBytes_length n.width bits).symm
      have hr : readN n.width (leBytes n.width bits) = .ok (leBytes n.width bits, []) := by
        have := readN_exact n.width (leBytes n.width bits) [] (leBytes_length n.width bits).symm
        simpa using this
      simp only [parseVFTWith, hc, parseValue, hr, fromLeBytes_leBytes n.width bits hlt]
  | str =>
    cases v <;> simp [valWf] at hwf
    next str =>
      rw [writeValue] at hw
      split at hw
      · exact absurd hw (by simp)
      · next p hp =>
        injection hw with hw
        subst hw
        have hc : readValueForTypeid (RTy.str).typeId ((p ++ str) ++ extra) =
            .ok (str, extra) :=
          carve_varsize (RTy.str).typeId (by rfl) str.length p str extra hp rfl
        simp only [parseVFTWith, hc, parseValue, hwf]
        simp
  | bytes =>
    cases v <;> simp [valWf] at hwf
    next bsv =>
      rw [writeValue] at hw
      split at hw
      · exact absurd hw (by simp)
      · next p hp =>
        injection hw with hw
        subst hw
        have hc : readValueForTypeid (RTy.bytes).typeId
            ((p ++ TypeId.u8.toByte :: bsv) ++ extra) =
            .ok (TypeId.u8.toByte :: bsv, extra) :=
          carve_varsize (RTy.bytes).typeId (by rfl) (1 + bsv.length) p _ extra hp
            (by simp [Nat.add_comm])
        simp only [parseVFTWith, hc, parseValue, readForType_toByte]
  | arr e =>
    cases v <;> simp [valWf] at hwf
    next tid es =>
      obtain ⟨rfl, hes⟩ := hwf
      simp only [noDeg, Bool.and_eq_true] at hnd
      rw [writeValue] at hw
      split at hw
      · exact absurd hw (by simp)
      · next p hp =>
        split at hw
        · exact absurd hw (by simp)
        · next body hbody =>
          injection hw with hw
          subst hw
          have hc : readValueForTypeid (RTy.arr e).typeId
              ((p ++ e.typeId.toByte :: body) ++ extra) =
              .ok (e.typeId.toByte :: body, extra) :=
            carve_varsize (RTy.arr e).typeId (by rfl) (1 + elemsLength es) p _ extra hp
              (by simp [writeElems_length es body hbody, Nat.add_comm])
          have hnn : e = RTy.null → es = [] := by
            intro he
            subst he
            have h1 := hnd.1
            cases es with
            | nil => rfl
            | cons x xs => simp [RTy.typeId] at h1
          have hloop := rt_elems e es body [] (body.length + 1) hty hes hnd.2 hnn hbody
            (Nat.le_refl _)
          simp only [parseVFTWith, hc, parseValue, readForType_toByte, hloop,
            List.reverse_nil, List.nil_append]
  | map kt vt =>
    cases v <;> simp [valWf] at hwf
    next ktid vtid entries =>
      obtain ⟨⟨⟨rfl, rfl⟩, hent⟩, hnodup⟩ := hwf
      simp only [RTy.wf, Bool.and_eq_true] at hty
      simp only [noDeg, Bool.and_eq_true] at hnd
      rw [writeValue] at hw
      split at hw
      · exact absurd hw (by simp)
      · next p hp =>
        split at hw
        · exact absurd hw (by simp)
        · next body hbody =>
          injection hw with hw
          subst hw
          have hc : readValueForTypeid (RTy.map kt vt).typeId
              ((p ++ kt.typeId.toByte :: vt.typeId.toByte :: body) ++ extra) =
              .ok (kt.typeId.toByte :: vt.typeId.toByte :: body, extra) :=
            carve_varsize (RTy.map kt vt).typeId (by rfl) (2 + entriesLength entries) p _ extra hp
              (by simp [writeEntries_length entries body hbody]; omega)
          have hnn : kt = RTy.null → vt = RTy.null → entries = [] := by
            intro hk hv
            subst hk hv
            have h1 := hnd.1
            cases entries with
            | nil => rfl
            | cons x xs => simp [RTy.typeId] at h1
          have hloop := rt_entries kt vt entries body [] (body.length + 1) hty.1 hty.2
            hent hnd.2 hnodup (by intro p hp2; rfl) hnn hbody (Nat.le_refl _)
          simp only [parseVFTWith, hc, parseValue, readForType_toByte, hloop,
            List.reverse_nil, List.nil_append]
  | struct fs =>
    cases v <;> simp [valWf] at hwf
    next vfs =>
      simp only [RTy.wf, Bool.and_eq_true] at hty
      simp only [noDeg] at hnd
      rw [writeValue] at hw
      split at hw
      · exact absurd hw (by simp)
      · next p hp =>
        split at hw
        · exact absurd hw (by simp)
        · next body hbody =>
          injection hw with hw
          subst hw
          have hc : readValueForTypeid (RTy.struct fs).typeId ((p ++ body) ++ extra) =
              .ok (body, extra) :=
            carve_varsize (RTy.struct fs).typeId (by rfl) (structContentLength vfs) p _ extra hp
              (writeFieldRecords_length vfs body hbody).symm
          have hrun := rt_fields fs vfs body none none hty.1 hty.2 hwf hnd
            (by simp [lastLe]) hbody
          simp only [parseVFTWith, hc, parseValue, structParseWith, hrun, finishLoop,
            peekFieldId, convertFields_ok fs vfs hwf]
  | enum vs =>
    cases v <;> simp [valWf] at hwf
    next vid tid pv =>
      simp only [RTy.wf, Bool.and_eq_true] at hty
      simp only [noDeg] at hnd
      rcases hfind : enumFind vs vid with - | ty
      · rw [hfind] at hwf; simp at hwf
      · rw [hfind] at hwf
        simp only [Bool.and_eq_true, beq_iff_eq] at hwf
        obtain ⟨rfl, hpv⟩ := hwf
        rw [writeValue] at hw
        split at hw
        · exact absurd hw (by simp)
        · next p hp =>
          split at hw
          · exact absurd hw (by simp)
          · next body hbody =>
            injection hw with hw
            subst hw
            have hvid : vid < 0x80 :=
              variantIdsOk_small none vs hty.1 (vid, ty) (enumFind_mem vs vid ty hfind)
            have hc : readValueForTypeid (RTy.enum vs).typeId
                ((p ++ vid :: ty.typeId.toByte :: body) ++ extra) =
                .ok (vid :: ty.typeId.toByte :: body, extra) :=
              carve_varsize (RTy.enum vs).typeId (by rfl) (1 + 1 + valueLength pv) p _ extra hp
                (by simp [writeValue_length pv body hbody]; omega)
            have htyv : RTy.wf ty = true :=
              wfVariants_mem vs hty.2 (vid, ty) (enumFind_mem vs vid ty hfind) 
            have hin := rt_vft ty pv body [] htyv hpv hnd hbody
            rw [List.append_nil] at hin
            have hdisp := enumDispatch_found vs vid ty (ty.typeId.toByte :: body) hfind
            have hinner : parseTLVWith ty.typeId (parseValue ty) (ty.typeId.toByte :: body)
                = some (.ok (pv, [])) := by
              simp only [parseTLVWith, readForType_toByte, hin]
            have hdisp2 : enumDispatch vs vid (ty.typeId.toByte :: body)
                = some (.ok (ty.typeId, pv, [])) := by
              rw [hdisp, hinner]
            simp only [parseVFTWith, hc, parseValue, readByte, hdisp2]
            rw [if_neg (by omega)]
            simp

theorem rt_elems (e : RTy) (es : List RVal) (bs : List Nat) (acc : List RVal) (fuel : Nat)
    (hty : RTy.wf e = true) (hwf : valWfElems e es = true) (hnd : noDegElems es = true)
    (hnn : e = RTy.null → es = [])
    (hw : writeElems es = .ok bs) (hfuel : bs.length + 1 ≤ fuel) :
    arrLoop fuel e.typeId (parseValue e) bs acc = some (.ok (acc.reverse ++ es)) := by
  cases es with
  | nil =>
    simp only [writeElems] at hw
    injection hw with hw
    subst hw
    obtain ⟨f, rfl⟩ : ∃ f, fuel = f + 1 := ⟨fuel - 1, by omega⟩
    simp [arrLoop]
  | cons x es' =>
    simp only [valWfElems, Bool.and_eq_true] at hwf
    simp only [noDegElems, Bool.and_eq_true] at hnd
    have hne : e ≠ RTy.null := by
      intro he
      exact absurd (hnn he) (by simp)
    rw [writeElems] at hw
    split at hw
    · exact absurd hw (by simp)
    · next b hb =>
      split at hw
      · exact absurd hw (by simp)
      · next rest hrest =>
        injection hw with hw
        subst hw
        obtain ⟨f, rfl⟩ : ∃ f, fuel = f + 1 := ⟨fuel - 1, by omega⟩
        have hbpos : 0 < b.length := by
          rw [writeValue_length x b hb]
          exact valueLength_pos e x hwf.1 hne
        have hbne : (b ++ rest).isEmpty = false :=
          isEmpty_false_of_ne _ (by simp; intro hb'; subst hb'; simp at hbpos)
        have hx := rt_vft e x b rest hty hwf.1 hnd.1 hb
        have hrec := rt_elems e es' rest (x :: acc) f hty hwf.2 hnd.2
          (fun he => absurd he hne) hrest (by simp at hfuel ⊢; omega)
        simp only [arrLoop, hbne, hx, hrec]
        simp

theorem rt_entries (k v : RTy) (entries : List (RVal × RVal)) (bs : List Nat)
    (acc : List (RVal × RVal)) (fuel : Nat)
    (htyk : RTy.wf k = true) (htyv : RTy.wf v = true)
    (hwf : valWfEntries k v entries = true) (hnd : noDegEntries entries = true)
    (hnodup : nodupKeys entries = true)
    (hfresh : ∀ p ∈ entries, containsKey acc p.1 = false)
    (hnn : k = RTy.null → v = RTy.null → entries = [])
    (hw : writeEntries entries = .ok bs) (hfuel : bs.length + 1 ≤ fuel) :
    mapLoop fuel k.typeId v.typeId (parseValue k) (parseValue v) bs acc =
      some (.ok (acc.reverse ++ entries)) := by
  cases entries with
  | nil =>
    simp only [writeEntries] at hw
    injection hw with hw
    subst hw
    obtain ⟨f, rfl⟩ : ∃ f, fuel = f + 1 := ⟨fuel - 1, by omega⟩
    simp [mapLoop]
  | cons kv rest' =>
    obtain ⟨kx, vx⟩ := kv
    simp only [valWfEntries, Bool.and_eq_true] at hwf
    obtain ⟨⟨hkx, hvx⟩, hrest⟩ := hwf
    simp only [noDegEntries, Bool.and_eq_true] at hnd
    obtain ⟨⟨hndk, hndv⟩, hndr⟩ := hnd
    simp only [nodupKeys, Bool.and_eq_true] at hnodup
    obtain ⟨hfreshk, hnodup'⟩ := hnodup
    rw [writeEntries] at hw
    split at hw
    · exact absurd hw (by simp)
    · next kb hkb =>
      split at hw
      · exact absurd hw (by simp)
      · next vb hvb =>
        split at hw
        · exact absurd hw (by simp)
        · next bsr hbsr =>
          injection hw with hw
          subst hw
          obtain ⟨f, rfl⟩ : ∃ f, fuel = f + 1 := ⟨fuel - 1, by omega⟩
          have hpairpos : 0 < kb.length + vb.length := by
            by_cases hknull : k = RTy.null
            · have hvne : v ≠ RTy.null := by
                intro hv
                exact absurd (hnn hknull hv) (by simp)
              have hpos := valueLength_pos v vx hvx hvne
              rw [← writeValue_length vx vb hvb] at hpos
              omega
            · have hpos := valueLength_pos k kx hkx hknull
              rw [← writeValue_length kx kb hkb] at hpos
              omega
          have hbne : (kb ++ (vb ++ bsr)).isEmpty = false := by
            apply isEmpty_false_of_ne
            simp
            intro h1 h2 h3
            subst h1 h2
            simp at hpairpos
          have hk := rt_vft k kx kb (vb ++ bsr) htyk hkx hndk hkb
          have hv := rt_vft v vx vb bsr htyv hvx hndv hvb
          have hcontains : containsKey acc kx = false := hfresh (kx, vx) (by simp)
          have hfresh' : ∀ p ∈ rest', containsKey ((kx, vx) :: acc) p.1 = false := by
            intro p hp
            simp only [containsKey, List.any_cons, Bool.or_eq_false_iff]
            constructor
            · have := hfreshk
              simp only [keyFresh, List.all_eq_true] at this
              have := this p hp
              simpa using this
            · exact hfresh p (List.mem_cons_of_mem _ hp)
          have hrec := rt_entries k v rest' bsr ((kx, vx) :: acc) f htyk htyv hrest hndr
            hnodup' hfresh' (fun h1 h2 => absurd (hnn h1 h2) (by simp)) hbsr
            (by simp at hfuel ⊢; omega)
          rw [List.append_assoc]
          simp only [mapLoop, hbne, hk, hv, hcontains, hrec]
          simp

theorem rt_fields (fs : List (Nat × Bool × RTy)) (vfs : List (Nat × TypeId × Option RVal))
    (bs : List Nat) (last prev : Option Nat)
    (hids : fieldIdsOk prev fs = true)
    (hwfl : RTy.wfFields fs = true)
    (hwf : valWfFields fs vfs = true)
    (hnd : noDegFields vfs = true)
    (hlast : lastLe last prev)
    (hw : writeFieldRecords vfs = .ok bs) :
    runFields (fieldDescs fs) bs last = some (.ok (fieldOptions vfs, [], finalLast vfs last)) := by
  cases fs with
  | nil =>
    cases vfs with
    | nil =>
      simp only [writeFieldRecords] at hw
      injection hw with hw
      subst hw
      simp [runFields, fieldDescs, fieldOptions, finalLast]
    | cons g vfs => rw [valWfFields_nil_cons] at hwf; exact absurd hwf (by simp)
  | cons fhead fs' =>
    obtain ⟨dfid2, opt, ty⟩ := fhead
    cases vfs with
    | nil => rw [valWfFields_cons_nil] at hwf; exact absurd hwf (by simp)
    | cons g vfs' =>
      obtain ⟨dfid2, tid, o⟩ := g
      rw [valWfFields_cons] at hwf
      simp only [Bool.and_eq_true, beq_iff_eq] at hwf
      obtain ⟨⟨⟨hid, htid⟩, ho⟩, hrest⟩ := hwf
      subst hid htid
      simp only [RTy.wfFields, Bool.and_eq_true] at hwfl
      have hidsinfo : (match prev with
          | none => decide (dfid2 < 0x80)
          | some p => decide (p < dfid2) && decide (dfid2 < 0x80)) = true ∧
          fieldIdsOk (some dfid2) fs' = true := by
        cases prev <;> simpa [fieldIdsOk, Bool.and_eq_true] using hids
      have hid128 : dfid2 < 0x80 := by
        rcases hidsinfo with ⟨h1, -⟩
        cases prev <;> simp at h1 <;> omega
      have hprevlt : ∀ p, prev = some p → p < dfid2 := by
        intro p hpp
        subst hpp
        rcases hidsinfo with ⟨h1, -⟩
        simp at h1
        omega
      cases o with
      | some w =>
        simp only [noDegFields, Bool.and_eq_true] at hnd
        rw [writeFieldRecords] at hw
        split at hw
        · exact absurd hw (by simp)
        · next b hb =>
          split at hw
          · exact absurd hw (by simp)
          · next rest hrest2 =>
            injection hw with hw
            subst hw
            rw [List.cons_append, List.cons_append]
            -- run the head field: hit the record directly
            have hx := rt_vft ty w b rest hwfl.1 ho hnd.1 hb
            have hrec := rt_fields fs' vfs' rest (some dfid2) (some dfid2) hidsinfo.2 hwfl.2
              hrest hnd.2 (by simp [lastLe]) hrest2
            have htlv : parseTLVWith ty.typeId (parseValue ty)
                (ty.typeId.toByte :: (b ++ rest)) = some (.ok (w, rest)) := by
              simp only [parseTLVWith, readForType_toByte, hx]
            have hstep := readFieldLoop_consume
              ((dfid2 :: ty.typeId.toByte :: (b ++ rest)).length)
              ty.typeId (parseValue ty) dfid2 (ty.typeId.toByte :: (b ++ rest)) last hid128
              (orderViolation_false last prev dfid2 hlast hprevlt) w rest htlv
            rw [fieldDescs_cons, runFields_cons, hstep]
            dsimp only
            rw [hrec]
            simp [fieldOptions, finalLast]
      | none =>
        simp only [noDegFields] at hnd
        -- the record stream continues with some strictly later present field
        have hlastle' : lastLe last (some dfid2) := by
          cases last with
          | none => simp [lastLe]
          | some l =>
            cases prev with
            | none => exact absurd hlast (by simp [lastLe])
            | some p =>
              simp only [lastLe] at hlast ⊢
              have := hprevlt p rfl
              omega
        have hrec := rt_fields fs' vfs' bs last (some dfid2) hidsinfo.2 hwfl.2
          hrest hnd hlastle' hw
        rcases hbs : bs with - | ⟨b0, btail⟩
        · subst hbs
          have hstep := readFieldLoop_empty 0 ty.typeId (parseValue ty) dfid2 last
          rw [fieldDescs_cons, runFields_cons]
          rw [show ([] : List Nat).length + 1 = 0 + 1 from rfl, hstep]
          dsimp only
          rw [hrec]
          simp [fieldOptions, finalLast]
        · subst hbs
          obtain ⟨j, hjhead, hjmem⟩ := writeFieldRecords_head vfs' (b0 :: btail) hw (by simp)
          simp only [List.head?] at hjhead
          injection hjhead with hjhead
          subst hjhead
          obtain ⟨fj, hfjmem, hfjid⟩ := presentIds_sub fs' vfs' hrest b0 hjmem
          have hjinfo := fieldIdsOk_lt dfid2 fs' hidsinfo.2 fj hfjmem
          have hjgt : dfid2 < b0 := hfjid ▸ hjinfo.1
          have hj128 : b0 < 0x80 := hfjid ▸ hjinfo.2
          have hviol : orderViolation last b0 = false := by
            apply orderViolation_false last prev b0 hlast
            intro p hpp
            have := hprevlt p hpp
            omega
          have hstep := readFieldLoop_absent ((b0 :: btail).length) ty.typeId (parseValue ty)
            dfid2 b0 btail last hj128 hviol hjgt
          rw [fieldDescs_cons, runFields_cons, hstep]
          dsimp only
          rw [hrec]
          simp [fieldOptions, finalLast]

end

end Relish

namespace Relish

/-! ## Claim C1: round-trip -/

/-- Counterexample to claim C1 as stated: `vec![Null]` is a well-formed value
of the supported type `Vec<Null>`, yet `parse(to_vec(v))` returns
`Ok(vec![])`, not `Ok(v)` — a `Null` element occupies zero bytes, so the
array's wire content forgets the elements. -/
theorem C1_counterexample :
    RTy.wf (RTy.arr RTy.null) = true ∧
    valWf (RTy.arr RTy.null) (RVal.varr TypeId.null [RVal.vnull]) = true ∧
    toVec (RTy.arr RTy.null) (RVal.varr TypeId.null [RVal.vnull]) = .ok [0x0F, 0x02, 0x00] ∧
    parse (RTy.arr RTy.null) [0x0F, 0x02, 0x00] = some (.ok (RVal.varr TypeId.null [])) ∧
    RVal.varr TypeId.null [] ≠ RVal.varr TypeId.null [RVal.vnull] :=
  ⟨rfl, rfl, rfl, rfl, by simp⟩

/-- Claim C1 (amended): for every well-formed value `v` of a supported type
that contains no nonempty `Null`-element array and no nonempty
`Null`-key-and-value map, parsing the bytes produced by `to_vec` yields
`Ok(v)`. -/
theorem C1_roundtrip (t : RTy) (v : RVal) (bs : List Nat)
    (hty : RTy.wf t = true) (hwf : valWf t v = true) (hnd : noDeg v = true)
    (hw : toVec t v = .ok bs) :
    parse t bs = some (.ok v) := by
  rw [toVec] at hw
  split at hw
  · exact absurd hw (by simp)
  · next bs2 hw2 =>
    injection hw with hw
    subst hw
    have h := rt_vft t v bs2 [] hty hwf hnd hw2
    rw [List.append_nil] at h
    simp only [parse, parseTLVWith, readForType_toByte, h]
    simp

/-- Witness for C1 at `vec![1u32, 2, 3]`. -/
theorem C1_roundtrip_witness :
    parse (RTy.arr (RTy.num NumTy.u32))
        [0x0F, 0x1A, 0x04, 1, 0, 0, 0, 2, 0, 0, 0, 3, 0, 0, 0] =
      some (.ok (RVal.varr TypeId.u32
        [RVal.vnum NumTy.u32 1, RVal.vnum NumTy.u32 2, RVal.vnum NumTy.u32 3])) :=
  C1_roundtrip (RTy.arr (RTy.num NumTy.u32))
    (RVal.varr TypeId.u32
      [RVal.vnum NumTy.u32 1, RVal.vnum NumTy.u32 2, RVal.vnum NumTy.u32 3])
    [0x0F, 0x1A, 0x04, 1, 0, 0, 0, 2, 0, 0, 0, 3, 0, 0, 0] rfl rfl rfl rfl

/-! ## Claim C7: the concrete bytes of `[1u32, 2u32, 3u32]` -/

/-- Counterexample to claim C7 as stated: the encoder's output for
`[1u32, 2u32, 3u32]` differs from the claimed byte string
`0F 0E 04 01 00 00 00 ...` — the content is 13 bytes, so its tagged-varint
length byte is `0x1A`, not `0x0E`. -/
theorem C7_counterexample :
    toVec (RTy.arr (RTy.num NumTy.u32))
        (RVal.varr TypeId.u32
          [RVal.vnum NumTy.u32 1, RVal.vnum NumTy.u32 2, RVal.vnum NumTy.u32 3]) =
      .ok [0x0F, 0x1A, 0x04, 0x01, 0, 0, 0, 0x02, 0, 0, 0, 0x03, 0, 0, 0] ∧
    [0x0F, 0x1A, 0x04, 0x01, 0, 0, 0, 0x02, 0, 0, 0, 0x03, 0, 0, 0] ≠
      [0x0F, 0x0E, 0x04, 0x01, 0, 0, 0, 0x02, 0, 0, 0, 0x03, 0, 0, 0] :=
  ⟨rfl, by decide⟩

/-- Claim C7 (amended): encoding `[1u32, 2u32, 3u32]` produces exactly
`0F 1A 04 01 00 00 00 02 00 00 00 03 00 00 00`. -/
theorem C7_amended :
    toVec (RTy.arr (RTy.num NumTy.u32))
        (RVal.varr TypeId.u32
          [RVal.vnum NumTy.u32 1, RVal.vnum NumTy.u32 2, RVal.vnum NumTy.u32 3]) =
      .ok [0x0F, 0x1A, 0x04, 0x01, 0, 0, 0, 0x02, 0, 0, 0, 0x03, 0, 0, 0] := rfl

/-! ## Claim C8: the write-error taxonomy -/

/-- Claim C8 evaluated against `src/error.rs`: the `WriteErrorKind` enum
declared there has exactly two constructors, `FieldIdTooLarge` and
`ContentTooLarge` — there is no `InvalidTimestamp` write-error kind, even
though `src/types.rs` (the chrono `write_value`) and its own test suite
reference `WriteErrorKind::InvalidTimestamp`. -/
theorem C8_writeError_two_kinds :
    ∀ k : WriteErrorKind,
      (∃ id, k = WriteErrorKind.FieldIdTooLarge id) ∨
      (∃ n, k = WriteErrorKind.ContentTooLarge n) := by
  intro k
  cases k with
  | FieldIdTooLarge id => exact Or.inl ⟨id, rfl⟩
  | ContentTooLarge n => exact Or.inr ⟨n, rfl⟩

/-! ## Claim C9: the truncated-bool input and the bool parser's index -/

/-- Claim C9: decoding `0x01` (a Bool type byte with no content byte) as a
bool fails with `InsufficientData{needed: 1, available: 0}`, and the TLV
path never reaches the unconditional `data[0]` index of `bool::parse_value`
with an empty slice: for every input, the bool parse returns normally
(`none` — the abnormal outcome — is unreachable). -/
theorem C9_bool_truncated_safe :
    parse RTy.boolT [0x01] = some (.error (.InsufficientData 1 0)) ∧
    ∀ data : List Nat, parse RTy.boolT data ≠ none := by
  refine ⟨rfl, ?_⟩
  intro data
  cases data with
  | nil => simp [parse, parseTLVWith, readForType, readByte]
  | cons b rest =>
    simp only [parse, parseTLVWith, readForType, readByte]
    cases hfb : TypeId.fromByte b with
    | none => simp
    | some tid =>
      by_cases htid : tid = (RTy.boolT).typeId
      · subst htid
        dsimp only
        rw [if_pos rfl]
        cases rest with
        | nil => simp [parseVFTWith, readValueForTypeid, readN, RTy.typeId, TypeId.lengthClass]
        | cons x rest2 =>
          have hc : readValueForTypeid (RTy.boolT).typeId (x :: rest2) = .ok ([x], rest2) := by
            simp [readValueForTypeid, readN, RTy.typeId, TypeId.lengthClass]
          simp only [parseVFTWith, hc, parseValue]
          by_cases hx0 : x = 0
          · simp only [if_pos hx0]
            split <;> simp
          · rw [if_neg hx0]
            by_cases hx255 : x = 255
            · simp only [if_pos hx255]
              split <;> simp
            · rw [if_neg hx255]
              simp
      · dsimp only
        rw [if_neg htid]
        simp

end Relish

namespace Relish

/-! ## Claim C10: `bytes::Bytes` and `Vec<u8>` write identical bytes -/

theorem elemsLength_u8 (bs : List Nat) :
    elemsLength (bs.map (fun b => RVal.vnum NumTy.u8 b)) = bs.length := by
  induction bs with
  | nil => rfl
  | cons b bs ih =>
    simp [elemsLength, valueLength, NumTy.width, ih]
    omega

theorem writeElems_u8 (bs : List Nat) (h : ∀ b ∈ bs, b < 256) :
    writeElems (bs.map (fun b => RVal.vnum NumTy.u8 b)) = .ok bs := by
  induction bs with
  | nil => rfl
  | cons b bs ih =>
    have hb : b % 256 = b := Nat.mod_eq_of_lt (h b (by simp))
    simp only [List.map_cons, writeElems, writeValue, NumTy.width, leBytes, Nat.div_eq_of_lt
      (h b (by simp)), hb]
    rw [ih (fun x hx => h x (by simp [hx]))]
    rfl

/-- Claim C10: for every byte sequence, encoding it as `bytes::Bytes` and as
`Vec<u8>` produce identical output (type byte `Array`, length prefix of
`1 + |b|`, the `U8` element type byte, then the raw bytes). -/
theorem C10_bytes_vec_u8_agree (bs : List Nat) (h : ∀ b ∈ bs, b < 256) :
    toVec RTy.bytes (RVal.vbytes bs) =
      toVec (RTy.arr (RTy.num NumTy.u8))
        (RVal.varr TypeId.u8 (bs.map (fun b => RVal.vnum NumTy.u8 b))) := by
  simp only [toVec, writeValue, elemsLength_u8, writeElems_u8 bs h, RTy.typeId,
    NumTy.typeId]

/-- Witness for C10 at `bs = [0xDE, 0xAD, 0xBE, 0xEF]`. -/
theorem C10_bytes_vec_u8_agree_witness :
    toVec RTy.bytes (RVal.vbytes [0xDE, 0xAD, 0xBE, 0xEF]) =
      toVec (RTy.arr (RTy.num NumTy.u8))
        (RVal.varr TypeId.u8 ([0xDE, 0xAD, 0xBE, 0xEF].map (fun b => RVal.vnum NumTy.u8 b))) :=
  C10_bytes_vec_u8_agree [0xDE, 0xAD, 0xBE, 0xEF] (by decide)

end Relish

namespace Relish

/-! ## The schema-less decoder (`relish_ascii/src/value.rs`,
`relish_ascii/src/parse_binary.rs`)

`Value` is the schemaless value tree; numerics are carried as their
little-endian bit patterns.  The decoder's recursion follows the wire (the
element types come from the data), so the model threads a fuel counter
decremented at every recursive parse; every terminating execution of the
source performs at most two recursive parses per consumed byte (a map entry
may parse a zero-byte `Null` key before a value), so `2·|data| + 2` fuel at
the top level covers every execution of the source that returns, and `none`
again marks the non-returning ones (such as an array of `Null` elements with
nonempty content). -/

inductive Value where
  | null
  | vbool (b : Bool)
  | u8 (v : Nat) | u16 (v : Nat) | u32 (v : Nat) | u64 (v : Nat) | u128 (v : Nat)
  | i8 (v : Nat) | i16 (v : Nat) | i32 (v : Nat) | i64 (v : Nat) | i128 (v : Nat)
  | f32 (bits : Nat) | f64 (bits : Nat)
  | str (s : List Nat)
  | array (elementType : TypeId) (elements : List Value)
  | map (keyType valType : TypeId) (entries : List (Value × Value))
  | struct (fields : List (Nat × Value))
  | enum (variantId : Nat) (value : Value)
  | timestamp (v : Nat)

/-- The numeric leaf for a fixed-width `TypeId` (the per-type
`parse_value` calls of the primitive match arms). -/
def numLeaf (tid : TypeId) (bits : Nat) : Value :=
  match tid with
  | .u8 => .u8 bits | .u16 => .u16 bits | .u32 => .u32 bits
  | .u64 => .u64 bits | .u128 => .u128 bits
  | .i8 => .i8 bits | .i16 => .i16 bits | .i32 => .i32 bits
  | .i64 => .i64 bits | .i128 => .i128 bits
  | .f32 => .f32 bits | .f64 => .f64 bits
  | .timestamp => .timestamp bits
  | _ => .null

mutual

/-- `parse_value` of the schema-less decoder: type byte, then typed parse. -/
def parseValueS (fuel : Nat) (data : List Nat) : PRes (Value × List Nat) :=
  match fuel with
  | 0 => none
  | fuel + 1 =>
    match readByte data with
    | .error e => some (.error e)
    | .ok (tb, rest) =>
      match TypeId.fromByte tb with
      | none => some (.error (.InvalidTypeId tb))
      | some tid => parseTypedS fuel tid rest

/-- `parse_typed_value`: carve the content, then build the `Value` for the
wire type. -/
def parseTypedS (fuel : Nat) (tid : TypeId) (data : List Nat) : PRes (Value × List Nat) :=
  match fuel with
  | 0 => none
  | fuel + 1 =>
    match readValueForTypeid tid data with
    | .error e => some (.error e)
    | .ok (content, rest) =>
      match tid with
      | .null => some (.ok (.null, rest))
      | .bool =>
        match content with
        | [] => none
        | b :: _ =>
          if b = 0x00 then some (.ok (.vbool false, rest))
          else if b = 0xFF then some (.ok (.vbool true, rest))
          else some (.error (.InvalidBoolValue b))
      | .string =>
        if validUtf8 content then some (.ok (.str content, rest))
        else some (.error .InvalidUtf8)
      | .array =>
        match readByte content with
        | .error e => some (.error e)
        | .ok (etb, c1) =>
          match TypeId.fromByte etb with
          | none => some (.error (.InvalidTypeId etb))
          | some elemTy =>
            match arrLoopS fuel elemTy c1 [] with
            | none => none
            | some (.error e) => some (.error e)
            | some (.ok elems) => some (.ok (.array elemTy elems, rest))
      | .map =>
        match readByte content with
        | .error e => some (.error e)
        | .ok (ktb, c1) =>
          match TypeId.fromByte ktb with
          | none => some (.error (.InvalidTypeId ktb))
          | some keyTy =>
            match readByte c1 with
            | .error e => some (.error e)
            | .ok (vtb, c2) =>
              match TypeId.fromByte vtb with
              | none => some (.error (.InvalidTypeId vtb))
              | some valTy =>
                match mapLoopS fuel keyTy valTy c2 [] with
                | none => none
                | some (.error e) => some (.error e)
                | some (.ok entries) => some (.ok (.map keyTy valTy entries, rest))
      | .struct =>
        match structLoopS fuel content [] with
        | none => none
        | some (.error e) => some (.error e)
        | some (.ok fields) => some (.ok (.struct fields, rest))
      | .enum =>
        match readByte content with
        | .error e => some (.error e)
        | .ok (vid, c1) =>
          if vid % 256 ≥ 0x80 then some (.error (.InvalidFieldId vid))
          else
            match parseValueS fuel c1 with
            | none => none
            | some (.error e) => some (.error e)
            | some (.ok (v, c2)) =>
              if c2.isEmpty then some (.ok (.enum vid v, rest))
              else some (.error (.ExtraData c2.length))
      | other =>
        -- the fixed-width numeric and timestamp leaves; the carve already
        -- produced exactly `width` bytes
        match readN (match other.lengthClass with
                     | .fixed n => n
                     | .varsize => 0) content with
        | .error e => some (.error e)
        | .ok (bytes, _) => some (.ok (numLeaf other (fromLeBytes bytes), rest))

/-- The element loop of the schema-less array branch. -/
def arrLoopS (fuel : Nat) (elemTy : TypeId) (content : List Nat) (acc : List Value) :
    PRes (List Value) :=
  match fuel with
  | 0 => none
  | fuel + 1 =>
    if content.isEmpty then some (.ok acc.reverse)
    else
      match parseTypedS fuel elemTy content with
      | none => none
      | some (.error e) => some (.error e)
      | some (.ok (v, c1)) => arrLoopS fuel elemTy c1 (v :: acc)

/-- The entry loop of the schema-less map branch: entries are pushed in wire
order and duplicate keys are NOT checked. -/
def mapLoopS (fuel : Nat) (keyTy valTy : TypeId) (content : List Nat)
    (acc : List (Value × Value)) : PRes (List (Value × Value)) :=
  match fuel with
  | 0 => none
  | fuel + 1 =>
    if content.isEmpty then some (.ok acc.reverse)
    else
      match parseTypedS fuel keyTy content with
      | none => none
      | some (.error e) => some (.error e)
      | some (.ok (k, c1)) =>
        match parseTypedS fuel valTy c1 with
        | none => none
        | some (.error e) => some (.error e)
        | some (.ok (v, c2)) => mapLoopS fuel keyTy valTy c2 ((k, v) :: acc)

/-- The field loop of the schema-less struct branch: wire order is preserved
and ordering is NOT enforced; only the field-id high bit is validated. -/
def structLoopS (fuel : Nat) (content : List Nat) (acc : List (Nat × Value)) :
    PRes (List (Nat × Value)) :=
  match fuel with
  | 0 => none
  | fuel + 1 =>
    if content.isEmpty then some (.ok acc.reverse)
    else
      match readByte content with
      | .error e => some (.error e)
      | .ok (fid, c1) =>
        if fid % 256 ≥ 0x80 then some (.error (.InvalidFieldId fid))
        else
          match parseValueS fuel c1 with
          | none => none
          | some (.error e) => some (.error e)
          | some (.ok (v, c2)) => structLoopS fuel c2 ((fid, v) :: acc)

end

/-- `from_bytes` of the schema-less decoder: parse one value, then reject
leftover bytes with `ExtraData`. -/
def fromBytes (data : List Nat) : PRes Value :=
  match parseValueS (2 * data.length + 2) data with
  | none => none
  | some (.error e) => some (.error e)
  | some (.ok (v, rest)) =>
    if rest.isEmpty then some (.ok v)
    else some (.error (.ExtraData rest.length))

end Relish

namespace Relish

/-! ## Claim C3: duplicate map keys -/

/-- A map payload presented as parseable key/value blocks:
`((key value, key bytes), (value value, value bytes))` per entry. -/
def pairBlocks : List ((RVal × List Nat) × (RVal × List Nat)) → List Nat
  | [] => []
  | ((_, kb), (_, vb)) :: rest => kb ++ vb ++ pairBlocks rest

/-- The decoded entries of the blocks. -/
def pairEntries (pairs : List ((RVal × List Nat) × (RVal × List Nat))) : List (RVal × RVal) :=
  pairs.map (fun p => (p.1.1, p.2.1))

theorem pairBlocks_length_ge (pairs : List ((RVal × List Nat) × (RVal × List Nat)))
    (hpos : ∀ p ∈ pairs, 0 < p.1.2.length + p.2.2.length) :
    pairs.length ≤ (pairBlocks pairs).length := by
  induction pairs with
  | nil => simp [pairBlocks]
  | cons p rest ih =>
    obtain ⟨⟨kx, kb⟩, vx, vb⟩ := p
    have h1 := hpos ((kx, kb), vx, vb) (by simp)
    have h2 := ih (fun q hq => hpos q (List.mem_cons_of_mem _ hq))
    simp only [pairBlocks, List.length_cons, List.length_append]
    simp at h1
    omega

/-- The entry loop of the typed `HashMap` parser fails with `DuplicateMapKey`
whenever the decoded keys contain a duplicate (or a key already present in
the accumulated map). -/
theorem mapLoop_dup (kt vt : TypeId) (pk pv : List Nat → PRes RVal)
    (pairs : List ((RVal × List Nat) × (RVal × List Nat)))
    (acc : List (RVal × RVal)) (fuel : Nat)
    (hparse : ∀ p ∈ pairs,
      (∀ extra, parseVFTWith kt pk (p.1.2 ++ extra) = some (.ok (p.1.1, extra))) ∧
      (∀ extra, parseVFTWith vt pv (p.2.2 ++ extra) = some (.ok (p.2.1, extra))))
    (hpos : ∀ p ∈ pairs, 0 < p.1.2.length + p.2.2.length)
    (hdup : nodupKeys (pairEntries pairs) = false ∨
      ∃ p ∈ pairEntries pairs, containsKey acc p.1 = true)
    (hfuel : pairs.length + 1 ≤ fuel) :
    mapLoop fuel kt vt pk pv (pairBlocks pairs) acc = some (.error .DuplicateMapKey) := by
  induction pairs generalizing acc fuel with
  | nil =>
    rcases hdup with h | ⟨p, hp, -⟩
    · simp [pairEntries, nodupKeys] at h
    · exact absurd hp (by simp [pairEntries])
  | cons phead rest ih =>
    obtain ⟨⟨kx, kb⟩, vx, vb⟩ := phead
    obtain ⟨f, rfl⟩ : ∃ f, fuel = f + 1 := ⟨fuel - 1, by omega⟩
    have hhead := hparse ((kx, kb), vx, vb) (by simp)
    have hposh := hpos ((kx, kb), vx, vb) (by simp)
    simp only at hposh
    have hk := hhead.1 (vb ++ pairBlocks rest)
    have hv := hhead.2 (pairBlocks rest)
    simp only at hk hv
    have hne : (kb ++ (vb ++ pairBlocks rest)).isEmpty = false := by
      apply isEmpty_false_of_ne
      intro hnil
      rcases List.append_eq_nil.mp hnil with ⟨h1, h2⟩
      rcases List.append_eq_nil.mp h2 with ⟨h2a, -⟩
      subst h1 h2a
      simp at hposh
    show mapLoop (f + 1) kt vt pk pv (kb ++ vb ++ pairBlocks rest) acc = _
    rw [List.append_assoc]
    simp only [mapLoop, hne, Bool.false_eq_true, if_false, hk, hv]
    by_cases hc : containsKey acc kx = true
    · rw [if_pos hc]
    · rw [if_neg hc]
      rw [Bool.not_eq_true] at hc
      apply ih
      · intro p hp
        exact hparse p (List.mem_cons_of_mem _ hp)
      · intro p hp
        exact hpos p (List.mem_cons_of_mem _ hp)
      · rcases hdup with h | ⟨p, hp, hpc⟩
        · simp only [pairEntries, List.map_cons, nodupKeys, Bool.and_eq_true] at h
          by_cases hfr : keyFresh kx (pairEntries rest) = true
          · left
            cases hnod : nodupKeys (pairEntries rest) with
            | false => rfl
            | true =>
              rw [show (pairEntries rest = List.map (fun p => (p.1.1, p.2.1)) rest) from rfl]
                at hfr hnod
              rw [hfr, hnod] at h
              simp at h
          · right
            rw [Bool.not_eq_true] at hfr
            simp only [keyFresh, List.all_eq_false, Bool.not_eq_true, Bool.not_eq_false]
              at hfr
            obtain ⟨e, he, hbe⟩ := hfr
            refine ⟨e, he, ?_⟩
            simp only [containsKey, List.any_cons, Bool.or_eq_true]
            left
            simpa using hbe
        · rcases List.mem_cons.mp hp with hp1 | hp1
          · subst hp1
            simp only at hpc
            rw [hpc] at hc
            simp at hc
          · right
            refine ⟨p, hp1, ?_⟩
            simp only [containsKey, List.any_cons, Bool.or_eq_true]
            right
            simpa [containsKey] using hpc
      · simp only [List.length_cons] at hfuel
        omega


/-- Counterexample to claim C3 as stated: on the duplicate-key map payload
`10 24 04 04 (1:u32)(10:u32)(1:u32)(20:u32)` the typed `HashMap` decoder
fails with `DuplicateMapKey`, but the schema-less value decoder succeeds,
recording both entries with equal keys in wire order — so it is not the case
that every decoder of map payloads rejects duplicates. -/
theorem C3_counterexample :
    parse (RTy.map (RTy.num NumTy.u32) (RTy.num NumTy.u32))
        [0x10, 0x24, 0x04, 0x04, 1, 0, 0, 0, 10, 0, 0, 0, 1, 0, 0, 0, 20, 0, 0, 0] =
      some (.error .DuplicateMapKey) ∧
    fromBytes [0x10, 0x24, 0x04, 0x04, 1, 0, 0, 0, 10, 0, 0, 0, 1, 0, 0, 0, 20, 0, 0, 0] =
      some (.ok (.map .u32 .u32 [(.u32 1, .u32 10), (.u32 1, .u32 20)])) :=
  ⟨rfl, rfl⟩

/-- Claim C3 (amended): the typed `HashMap` decoder fails with
`DuplicateMapKey` on every map payload two of whose decoded entry keys are
equal; the schema-less value decoder, by contrast, accepts such payloads
(witnessed here on the concrete duplicate-key payload above). -/
theorem C3_amended :
    (∀ (k v : RTy) (pairs : List ((RVal × List Nat) × (RVal × List Nat))),
      (∀ p ∈ pairs,
        (∀ extra, parseVFTWith k.typeId (parseValue k) (p.1.2 ++ extra) =
          some (.ok (p.1.1, extra))) ∧
        (∀ extra, parseVFTWith v.typeId (parseValue v) (p.2.2 ++ extra) =
          some (.ok (p.2.1, extra)))) →
      (∀ p ∈ pairs, 0 < p.1.2.length + p.2.2.length) →
      nodupKeys (pairEntries pairs) = false →
      parseValue (RTy.map k v)
          (k.typeId.toByte :: v.typeId.toByte :: pairBlocks pairs) =
        some (.error .DuplicateMapKey)) ∧
    fromBytes [0x10, 0x24, 0x04, 0x04, 1, 0, 0, 0, 10, 0, 0, 0, 1, 0, 0, 0, 20, 0, 0, 0] =
      some (.ok (.map .u32 .u32 [(.u32 1, .u32 10), (.u32 1, .u32 20)])) := by
  refine ⟨?_, rfl⟩
  intro k v pairs hparse hpos hdup
  have hloop := mapLoop_dup k.typeId v.typeId (parseValue k) (parseValue v) pairs []
    ((pairBlocks pairs).length + 1) hparse hpos (Or.inl hdup)
    (by have := pairBlocks_length_ge pairs hpos; omega)
  simp only [parseValue, readForType_toByte, hloop]

/-- Witness for the universal part of C3 (amended) at the u32 ↦ u32 payload
with the duplicated key 1. -/
theorem C3_amended_witness :
    parseValue (RTy.map (RTy.num NumTy.u32) (RTy.num NumTy.u32))
        ((RTy.num NumTy.u32).typeId.toByte :: (RTy.num NumTy.u32).typeId.toByte ::
          pairBlocks
            [((RVal.vnum NumTy.u32 1, [1, 0, 0, 0]), (RVal.vnum NumTy.u32 10, [10, 0, 0, 0])),
             ((RVal.vnum NumTy.u32 1, [1, 0, 0, 0]), (RVal.vnum NumTy.u32 20, [20, 0, 0, 0]))]) =
      some (.error .DuplicateMapKey) := by
  apply C3_amended.1
  · intro p hp
    rcases List.mem_cons.mp hp with hp1 | hp1
    · subst hp1
      exact ⟨fun extra => rt_vft (RTy.num NumTy.u32) (RVal.vnum NumTy.u32 1)
          [1, 0, 0, 0] extra rfl rfl rfl rfl,
        fun extra => rt_vft (RTy.num NumTy.u32) (RVal.vnum NumTy.u32 10)
          [10, 0, 0, 0] extra rfl rfl rfl rfl⟩
    · rcases List.mem_cons.mp hp1 with hp2 | hp2
      · subst hp2
        exact ⟨fun extra => rt_vft (RTy.num NumTy.u32) (RVal.vnum NumTy.u32 1)
            [1, 0, 0, 0] extra rfl rfl rfl rfl,
          fun extra => rt_vft (RTy.num NumTy.u32) (RVal.vnum NumTy.u32 20)
            [20, 0, 0, 0] extra rfl rfl rfl rfl⟩
      · exact absurd hp2 (by simp)
  · intro p hp
    rcases List.mem_cons.mp hp with hp1 | hp1
    · subst hp1; simp
    · rcases List.mem_cons.mp hp1 with hp2 | hp2
      · subst hp2; simp
      · exact absurd hp2 (by simp)
  · rfl

end Relish

namespace Relish

/-! ## Claims C2 and C4: the struct field cursor over record streams

A struct payload is a sequence of field records `field_id, type_byte,
value bytes`.  `Rec` names one record together with the content its value
bytes carve to; `wfRec` says the record is syntactically well formed. -/

abbrev Rec := Nat × TypeId × List Nat × List Nat

/-- The wire bytes of one record: field id byte, type byte, value bytes. -/
def recordBytes (r : Rec) : List Nat := r.1 :: r.2.1.toByte :: r.2.2.1

/-- The wire bytes of a struct payload made of the given records. -/
def recordsBytes : List Rec → List Nat
  | [] => []
  | r :: rs => recordBytes r ++ recordsBytes rs

/-- A well-formed record: the field id fits in seven bits, and the value
bytes carve to exactly the stated content whatever follows on the wire. -/
def wfRec (r : Rec) : Prop :=
  r.1 < 0x80 ∧ ∀ extra, readValueForTypeid r.2.1 (r.2.2.1 ++ extra) = .ok (r.2.2.2, extra)

/-- The field ids of a record stream are strictly increasing, starting
strictly above the given last-seen id. -/
def idsIncreasing : Option Nat → List Rec → Bool
  | _, [] => true
  | none, r :: rs => idsIncreasing (some r.1) rs
  | some l, r :: rs => decide (l < r.1) && idsIncreasing (some r.1) rs

theorem recordsBytes_cons (x : Rec) (rs : List Rec) :
    recordsBytes (x :: rs) = x.1 :: x.2.1.toByte :: (x.2.2.1 ++ recordsBytes rs) := rfl

theorem recordsBytes_snoc (rs : List Rec) (r : Rec) :
    recordsBytes (rs ++ [r]) = recordsBytes rs ++ recordBytes r := by
  induction rs with
  | nil => simp [recordsBytes]
  | cons x rs ih => simp [recordsBytes, ih, List.append_assoc]

theorem recordsBytes_length_ge (rs : List Rec) : rs.length ≤ (recordsBytes rs).length := by
  induction rs with
  | nil => simp [recordsBytes]
  | cons x rs ih =>
    rw [recordsBytes_cons]
    simp only [List.length_cons, List.length_append]
    omega

/-- `skip_current_field` consumes exactly one well-formed record. -/
theorem skip_record (r : Rec) (h : wfRec r) (extra : List Nat) :
    skipCurrentField (r.1 :: r.2.1.toByte :: (r.2.2.1 ++ extra)) = .ok extra := by
  simp only [skipCurrentField, readByte, fromByte_toByte, h.2 extra]

/-- `parse_tlv` on one well-formed record whose content parses. -/
theorem consume_record (pv : List Nat → PRes RVal) (r : Rec) (h : wfRec r) (w : RVal)
    (hpv : pv r.2.2.2 = some (.ok w)) (extra : List Nat) :
    parseTLVWith r.2.1 pv (r.2.1.toByte :: (r.2.2.1 ++ extra)) = some (.ok (w, extra)) := by
  simp only [parseTLVWith, readForType_toByte, parseVFTWith, h.2 extra, hpv]

theorem orderViolation_lt (last : Option Nat) (j : Nat)
    (h : ∀ l, last = some l → l < j) : orderViolation last j = false := by
  cases last with
  | none => rfl
  | some l =>
    have := h l rfl
    simp only [orderViolation, decide_eq_false_iff_not]
    omega

theorem idsIncreasing_cons (last : Option Nat) (x : Rec) (rs : List Rec)
    (h : idsIncreasing last (x :: rs) = true) :
    (∀ l, last = some l → l < x.1) ∧ idsIncreasing (some x.1) rs = true := by
  cases last with
  | none => exact ⟨fun l hl => (by cases hl), h⟩
  | some l =>
    simp only [idsIncreasing, Bool.and_eq_true, decide_eq_true_eq] at h
    exact ⟨fun l' hl' => by injection hl' with hl'; subst hl'; exact h.1, h.2⟩

theorem idsIncreasing_cons_false (last : Option Nat) (x : Rec) (rs : List Rec)
    (h : idsIncreasing last (x :: rs) = false)
    (hnv : orderViolation last x.1 = false) :
    idsIncreasing (some x.1) rs = false := by
  cases last with
  | none => exact h
  | some l =>
    simp only [orderViolation, decide_eq_false_iff_not, Nat.not_le] at hnv
    rw [idsIncreasing, decide_eq_true hnv] at h
    simpa using h

end Relish

namespace Relish

theorem readFieldLoop_violStep (fuel : Nat) (tid : TypeId) (pv : List Nat → PRes RVal)
    (target j : Nat) (tl : List Nat) (last : Option Nat)
    (hj : j < 0x80) (hviol : orderViolation last j = true) :
    readFieldLoop (fuel + 1) tid pv target (j :: tl) last =
      some (.error (.FieldOrderViolation (last.getD 0) j)) := by
  simp only [readFieldLoop, peekFieldId_small j hj, hviol, if_true]

theorem readFieldLoop_skipStep (fuel : Nat) (tid : TypeId) (pv : List Nat → PRes RVal)
    (target j : Nat) (tl tl' : List Nat) (last : Option Nat)
    (hj : j < 0x80) (hviol : orderViolation last j = false) (hlt : j < target)
    (hskip : skipCurrentField (j :: tl) = .ok tl') :
    readFieldLoop (fuel + 1) tid pv target (j :: tl) last =
      readFieldLoop fuel tid pv target tl' (some j) := by
  simp only [readFieldLoop, peekFieldId_small j hj, hviol, Bool.false_eq_true, if_false,
    if_pos hlt, hskip]

theorem finishLoop_nil (fuel : Nat) (last : Option Nat) :
    finishLoop (fuel + 1) [] last = some (.ok ()) := by
  simp [finishLoop, peekFieldId]

theorem finishLoop_violStep (fuel j : Nat) (tl : List Nat) (last : Option Nat)
    (hj : j < 0x80) (hviol : orderViolation last j = true) :
    finishLoop (fuel + 1) (j :: tl) last =
      some (.error (.FieldOrderViolation (last.getD 0) j)) := by
  simp only [finishLoop, peekFieldId_small j hj, hviol, if_true]

theorem finishLoop_skipStep (fuel j : Nat) (tl tl' : List Nat) (last : Option Nat)
    (hj : j < 0x80) (hviol : orderViolation last j = false)
    (hskip : skipCurrentField (j :: tl) = .ok tl') :
    finishLoop (fuel + 1) (j :: tl) last = finishLoop fuel tl' (some j) := by
  simp only [finishLoop, peekFieldId_small j hj, hviol, Bool.false_eq_true, if_false, hskip]

/-- The field cursor on a record stream whose ids are not strictly
increasing: either it reports the order violation itself, or it stops early
and hands a still-violating suffix to the rest of the parser. -/
theorem readFieldLoop_viol (tid : TypeId) (pv : List Nat → PRes RVal) (target : Nat)
    (rs : List Rec) (last : Option Nat) (fuel : Nat)
    (hwf : ∀ x ∈ rs, wfRec x)
    (hcompat : ∀ x ∈ rs, x.1 = target → tid = x.2.1 ∧ ∃ w, pv x.2.2.2 = some (.ok w))
    (hfuel : rs.length + 1 ≤ fuel)
    (hbad : idsIncreasing last rs = false) :
    (∃ p c, readFieldLoop fuel tid pv target (recordsBytes rs) last =
        some (.error (.FieldOrderViolation p c))) ∨
    (∃ o rs' l', readFieldLoop fuel tid pv target (recordsBytes rs) last =
        some (.ok (o, recordsBytes rs', l')) ∧
      List.IsSuffix rs' rs ∧ idsIncreasing l' rs' = false) := by
  induction rs generalizing last fuel with
  | nil => cases last <;> simp [idsIncreasing] at hbad
  | cons x rest ih =>
    obtain ⟨fuel, rfl⟩ : ∃ f, fuel = f + 1 := ⟨fuel - 1, by omega⟩
    have hwfx := hwf x (List.mem_cons_self x rest)
    rw [recordsBytes_cons]
    by_cases hviol : orderViolation last x.1 = true
    · exact Or.inl ⟨last.getD 0, x.1,
        readFieldLoop_violStep fuel tid pv target x.1 _ last hwfx.1 hviol⟩
    · have hnv : orderViolation last x.1 = false := by
        cases hov : orderViolation last x.1
        · rfl
        · exact absurd hov hviol
      have hbad' : idsIncreasing (some x.1) rest = false :=
        idsIncreasing_cons_false last x rest hbad hnv
      rcases Nat.lt_trichotomy x.1 target with hxt | hxt | hxt
      · rw [readFieldLoop_skipStep fuel tid pv target x.1 _ (recordsBytes rest) last
          hwfx.1 hnv hxt (skip_record x hwfx (recordsBytes rest))]
        have hres := ih (some x.1) fuel
          (fun y hy => hwf y (List.mem_cons_of_mem x hy))
          (fun y hy hid => hcompat y (List.mem_cons_of_mem x hy) hid)
          (by simp only [List.length_cons] at hfuel; omega) hbad'
        rcases hres with ⟨p, c, hres⟩ | ⟨o, rs', l', hres, hsuf, hinc⟩
        · exact Or.inl ⟨p, c, hres⟩
        · exact Or.inr ⟨o, rs', l', hres, hsuf.trans (List.suffix_cons x rest), hinc⟩
      · obtain ⟨htid, w, hpv⟩ := hcompat x (List.mem_cons_self x rest) hxt
        subst hxt
        subst htid
        rw [readFieldLoop_consume fuel x.2.1 pv x.1
          (x.2.1.toByte :: (x.2.2.1 ++ recordsBytes rest)) last hwfx.1 hnv w
          (recordsBytes rest) (consume_record pv x hwfx w hpv (recordsBytes rest))]
        exact Or.inr ⟨some w, rest, some x.1, rfl, List.suffix_cons x rest, hbad'⟩
      · rw [readFieldLoop_absent fuel tid pv target x.1 _ last hwfx.1 hnv hxt]
        exact Or.inr ⟨none, x :: rest, last, by rw [recordsBytes_cons],
          List.suffix_refl _, hbad⟩

end Relish

namespace Relish

/-- `runFields` on a violating record stream: the violation is either
reported or left in the suffix handed to `finish`. -/
theorem runFields_viol (descs : List FieldDesc) (rs : List Rec) (last : Option Nat)
    (hwf : ∀ x ∈ rs, wfRec x)
    (hcompat : ∀ x ∈ rs, ∀ d ∈ descs, x.1 = d.1 →
      d.2.2.1 = x.2.1 ∧ ∃ w, d.2.2.2 x.2.2.2 = some (.ok w))
    (hbad : idsIncreasing last rs = false) :
    (∃ p c, runFields descs (recordsBytes rs) last =
        some (.error (.FieldOrderViolation p c))) ∨
    (∃ os rs' l', runFields descs (recordsBytes rs) last =
        some (.ok (os, recordsBytes rs', l')) ∧
      List.IsSuffix rs' rs ∧ idsIncreasing l' rs' = false) := by
  induction descs generalizing rs last with
  | nil => exact Or.inr ⟨[], rs, last, runFields_nil _ _, List.suffix_refl _, hbad⟩
  | cons d descs ih =>
    obtain ⟨id, opt, tid, pv⟩ := d
    have hrf := readFieldLoop_viol tid pv id rs last ((recordsBytes rs).length + 1) hwf
      (fun x hx hxid => hcompat x hx (id, opt, tid, pv) (List.mem_cons_self _ _) hxid)
      (by have := recordsBytes_length_ge rs; omega) hbad
    rw [runFields_cons]
    rcases hrf with ⟨p, c, hres⟩ | ⟨o, rs', l', hres, hsuf, hinc⟩
    · rw [hres]
      exact Or.inl ⟨p, c, rfl⟩
    · rw [hres]
      dsimp only
      have hrest := ih rs' l' (fun y hy => hwf y (hsuf.subset hy))
        (fun y hy e he hid => hcompat y (hsuf.subset hy) e (List.mem_cons_of_mem _ he) hid)
        hinc
      rcases hrest with ⟨p, c, hres2⟩ | ⟨os, rs'', l'', hres2, hsuf2, hinc2⟩
      · rw [hres2]
        exact Or.inl ⟨p, c, rfl⟩
      · rw [hres2]
        exact Or.inr ⟨o :: os, rs'', l'', rfl, hsuf2.trans hsuf, hinc2⟩

/-- `finish` on a violating record stream always reports the violation. -/
theorem finishLoop_viol (rs : List Rec) (last : Option Nat) (fuel : Nat)
    (hwf : ∀ x ∈ rs, wfRec x) (hfuel : rs.length + 1 ≤ fuel)
    (hbad : idsIncreasing last rs = false) :
    ∃ p c, finishLoop fuel (recordsBytes rs) last =
      some (.error (.FieldOrderViolation p c)) := by
  induction rs generalizing last fuel with
  | nil => cases last <;> simp [idsIncreasing] at hbad
  | cons x rest ih =>
    obtain ⟨fuel, rfl⟩ : ∃ f, fuel = f + 1 := ⟨fuel - 1, by omega⟩
    have hwfx := hwf x (List.mem_cons_self x rest)
    rw [recordsBytes_cons]
    by_cases hviol : orderViolation last x.1 = true
    · exact ⟨last.getD 0, x.1, finishLoop_violStep fuel x.1 _ last hwfx.1 hviol⟩
    · have hnv : orderViolation last x.1 = false := by
        cases hov : orderViolation last x.1
        · rfl
        · exact absurd hov hviol
      rw [finishLoop_skipStep fuel x.1 _ (recordsBytes rest) last hwfx.1 hnv
        (skip_record x hwfx (recordsBytes rest))]
      exact ih (some x.1) fuel (fun y hy => hwf y (List.mem_cons_of_mem x hy))
        (by simp only [List.length_cons] at hfuel; omega)
        (idsIncreasing_cons_false last x rest hbad hnv)

/-- Membership description of the generated field descriptors. -/
theorem mem_fieldDescs (d : FieldDesc) (fs : List (Nat × Bool × RTy))
    (hd : d ∈ fieldDescs fs) :
    ∃ f ∈ fs, d = (f.1, f.2.1, f.2.2.typeId, parseValue f.2.2) := by
  induction fs with
  | nil => exact absurd hd (by simp [fieldDescs])
  | cons f fs ih =>
    obtain ⟨id, opt, ty⟩ := f
    rw [fieldDescs_cons] at hd
    rcases List.mem_cons.mp hd with h | h
    · exact ⟨(id, opt, ty), List.mem_cons_self _ _, h⟩
    · obtain ⟨f', hf', he⟩ := ih h
      exact ⟨f', List.mem_cons_of_mem _ hf', he⟩

/-- Definitional unfolding of the generated struct `parse_value` pipeline. -/
theorem structParseWith_run (descs : List FieldDesc) (data : List Nat) :
    structParseWith descs data =
      match runFields descs data none with
      | none => none
      | some (.error e) => some (.error e)
      | some (.ok (os, d', l')) =>
        match finishLoop (d'.length + 1) d' l' with
        | none => none
        | some (.error e) => some (.error e)
        | some (.ok ()) =>
          match convertFields descs os with
          | .error e => some (.error e)
          | .ok fields => some (.ok (.vstruct fields)) := rfl

end Relish

namespace Relish

/-- Claim C2: on every struct payload of well-formed, schema-compatible
field records whose on-wire field ids are not strictly increasing, the
generated struct reader — including the `finish` drain of trailing
unknown fields — fails with `FieldOrderViolation`. -/
theorem C2_struct_field_order (fs : List (Nat × Bool × RTy)) (rs : List Rec)
    (hwf : ∀ x ∈ rs, wfRec x)
    (hcompat : ∀ x ∈ rs, ∀ f ∈ fs, x.1 = f.1 →
      f.2.2.typeId = x.2.1 ∧ ∃ w, parseValue f.2.2 x.2.2.2 = some (.ok w))
    (hbad : idsIncreasing none rs = false) :
    ∃ p c, structParseWith (fieldDescs fs) (recordsBytes rs) =
      some (.error (.FieldOrderViolation p c)) := by
  have hcompat' : ∀ x ∈ rs, ∀ d ∈ fieldDescs fs, x.1 = d.1 →
      d.2.2.1 = x.2.1 ∧ ∃ w, d.2.2.2 x.2.2.2 = some (.ok w) := by
    intro x hx d hd hid
    obtain ⟨f, hf, he⟩ := mem_fieldDescs d fs hd
    subst he
    exact hcompat x hx f hf hid
  rcases runFields_viol (fieldDescs fs) rs none hwf hcompat' hbad with
    ⟨p, c, hres⟩ | ⟨os, rs', l', hres, hsuf, hinc⟩
  · exact ⟨p, c, by rw [structParseWith_run, hres]⟩
  · obtain ⟨p, c, hfin⟩ := finishLoop_viol rs' l' ((recordsBytes rs').length + 1)
      (fun y hy => hwf y (hsuf.subset hy))
      (by have := recordsBytes_length_ge rs'; omega) hinc
    refine ⟨p, c, ?_⟩
    rw [structParseWith_run, hres]
    dsimp only
    rw [hfin]

/-- Witness for C2 at a concrete payload whose trailing unknown fields
repeat id 5: the duplicate is caught by the `finish` drain. -/
theorem C2_struct_field_order_witness :
    ∃ p c, structParseWith (fieldDescs [(0, false, RTy.num NumTy.u32)])
        (recordsBytes [(0, TypeId.u32, [7, 0, 0, 0], [7, 0, 0, 0]),
          (5, TypeId.u32, [1, 0, 0, 0], [1, 0, 0, 0]),
          (5, TypeId.u32, [2, 0, 0, 0], [2, 0, 0, 0])]) =
      some (.error (.FieldOrderViolation p c)) := by
  apply C2_struct_field_order
  · intro x hx
    simp only [List.mem_cons, List.not_mem_nil, or_false] at hx
    rcases hx with rfl | rfl | rfl
    · exact ⟨by omega, fun extra => carve_fixed TypeId.u32 4 rfl [7, 0, 0, 0] extra rfl⟩
    · exact ⟨by omega, fun extra => carve_fixed TypeId.u32 4 rfl [1, 0, 0, 0] extra rfl⟩
    · exact ⟨by omega, fun extra => carve_fixed TypeId.u32 4 rfl [2, 0, 0, 0] extra rfl⟩
  · intro x hx f hf hid
    simp only [List.mem_cons, List.not_mem_nil, or_false] at hf
    subst hf
    simp only [List.mem_cons, List.not_mem_nil, or_false] at hx
    rcases hx with rfl | rfl | rfl
    · exact ⟨rfl, RVal.vnum NumTy.u32 7, rfl⟩
    · exact absurd hid (by decide)
    · exact absurd hid (by decide)
  · rfl

end Relish

namespace Relish

/-- The field cursor ignores a record appended past the end of a strictly
increasing stream when its id is larger than the target and everything
seen: both runs return the same field value and last-seen id. -/
theorem readFieldLoop_snoc (tid : TypeId) (pv : List Nat → PRes RVal) (target : Nat)
    (r : Rec) (rs : List Rec) (last : Option Nat) (fuel fuel' : Nat)
    (hwf : ∀ x ∈ rs, wfRec x) (hwfr : wfRec r)
    (hcompat : ∀ x ∈ rs, x.1 = target → tid = x.2.1 ∧ ∃ w, pv x.2.2.2 = some (.ok w))
    (hlt : ∀ x ∈ rs, x.1 < r.1) (htarget : target < r.1)
    (hlast : ∀ l, last = some l → l < r.1)
    (hinc : idsIncreasing last rs = true)
    (hfuel : rs.length + 1 ≤ fuel) (hfuel' : rs.length + 1 ≤ fuel') :
    ∃ o rs' l', readFieldLoop fuel tid pv target (recordsBytes rs) last =
        some (.ok (o, recordsBytes rs', l')) ∧
      readFieldLoop fuel' tid pv target (recordsBytes (rs ++ [r])) last =
        some (.ok (o, recordsBytes (rs' ++ [r]), l')) ∧
      List.IsSuffix rs' rs ∧ idsIncreasing l' rs' = true ∧
      (∀ l, l' = some l → l < r.1) := by
  induction rs generalizing last fuel fuel' with
  | nil =>
    obtain ⟨fuel, rfl⟩ : ∃ f, fuel = f + 1 := ⟨fuel - 1, by omega⟩
    obtain ⟨fuel', rfl⟩ : ∃ f, fuel' = f + 1 := ⟨fuel' - 1, by omega⟩
    refine ⟨none, [], last, readFieldLoop_empty fuel tid pv target last, ?_,
      List.suffix_refl _, by cases last <;> rfl, hlast⟩
    rw [List.nil_append, recordsBytes_cons]
    exact readFieldLoop_absent fuel' tid pv target r.1 _ last hwfr.1
      (orderViolation_lt last r.1 hlast) htarget
  | cons x rest ih =>
    obtain ⟨fuel, rfl⟩ : ∃ f, fuel = f + 1 := ⟨fuel - 1, by omega⟩
    obtain ⟨fuel', rfl⟩ : ∃ f, fuel' = f + 1 := ⟨fuel' - 1, by omega⟩
    have hwfx := hwf x (List.mem_cons_self x rest)
    have hxr : x.1 < r.1 := hlt x (List.mem_cons_self x rest)
    obtain ⟨hlast_x, hinc'⟩ := idsIncreasing_cons last x rest hinc
    have hnv : orderViolation last x.1 = false := orderViolation_lt last x.1 hlast_x
    rw [recordsBytes_cons, List.cons_append, recordsBytes_cons]
    rcases Nat.lt_trichotomy x.1 target with hxt | hxt | hxt
    · rw [readFieldLoop_skipStep fuel tid pv target x.1 _ (recordsBytes rest) last
        hwfx.1 hnv hxt (skip_record x hwfx (recordsBytes rest))]
      rw [readFieldLoop_skipStep fuel' tid pv target x.1 _ (recordsBytes (rest ++ [r])) last
        hwfx.1 hnv hxt (skip_record x hwfx (recordsBytes (rest ++ [r])))]
      exact ih (some x.1) fuel fuel'
        (fun y hy => hwf y (List.mem_cons_of_mem x hy))
        (fun y hy hid => hcompat y (List.mem_cons_of_mem x hy) hid)
        (fun y hy => hlt y (List.mem_cons_of_mem x hy))
        (fun l hl => by injection hl with hl; subst hl; exact hxr)
        hinc'
        (by simp only [List.length_cons] at hfuel; omega)
        (by simp only [List.length_cons] at hfuel'; omega)
        |>.imp fun o h => h.imp fun rs' h => h.imp fun l' h =>
          ⟨h.1, h.2.1, h.2.2.1.trans (List.suffix_cons x rest), h.2.2.2.1, h.2.2.2.2⟩
    · obtain ⟨htid, w, hpv⟩ := hcompat x (List.mem_cons_self x rest) hxt
      subst hxt
      subst htid
      rw [readFieldLoop_consume fuel x.2.1 pv x.1
        (x.2.1.toByte :: (x.2.2.1 ++ recordsBytes rest)) last hwfx.1 hnv w
        (recordsBytes rest) (consume_record pv x hwfx w hpv (recordsBytes rest))]
      rw [readFieldLoop_consume fuel' x.2.1 pv x.1
        (x.2.1.toByte :: (x.2.2.1 ++ recordsBytes (rest ++ [r]))) last hwfx.1 hnv w
        (recordsBytes (rest ++ [r]))
        (consume_record pv x hwfx w hpv (recordsBytes (rest ++ [r])))]
      exact ⟨some w, rest, some x.1, rfl, rfl, List.suffix_cons x rest, hinc',
        fun l hl => by injection hl with hl; subst hl; exact hxr⟩
    · rw [readFieldLoop_absent fuel tid pv target x.1 _ last hwfx.1 hnv hxt]
      rw [readFieldLoop_absent fuel' tid pv target x.1 _ last hwfx.1 hnv hxt]
      exact ⟨none, x :: rest, last, by rw [recordsBytes_cons],
        by rw [List.cons_append, recordsBytes_cons], List.suffix_refl _, hinc, hlast⟩

end Relish

namespace Relish

/-- `runFields` ignores a record appended past the end of a strictly
increasing stream when its id is larger than all payload and declared ids. -/
theorem runFields_snoc (descs : List FieldDesc) (r : Rec) (rs : List Rec)
    (last : Option Nat)
    (hwf : ∀ x ∈ rs, wfRec x) (hwfr : wfRec r)
    (hcompat : ∀ x ∈ rs, ∀ d ∈ descs, x.1 = d.1 →
      d.2.2.1 = x.2.1 ∧ ∃ w, d.2.2.2 x.2.2.2 = some (.ok w))
    (hlt : ∀ x ∈ rs, x.1 < r.1) (hdlt : ∀ d ∈ descs, d.1 < r.1)
    (hlast : ∀ l, last = some l → l < r.1)
    (hinc : idsIncreasing last rs = true) :
    ∃ os rs' l', runFields descs (recordsBytes rs) last =
        some (.ok (os, recordsBytes rs', l')) ∧
      runFields descs (recordsBytes (rs ++ [r])) last =
        some (.ok (os, recordsBytes (rs' ++ [r]), l')) ∧
      List.IsSuffix rs' rs ∧ idsIncreasing l' rs' = true ∧
      (∀ l, l' = some l → l < r.1) := by
  induction descs generalizing rs last with
  | nil =>
    exact ⟨[], rs, last, runFields_nil _ _, runFields_nil _ _, List.suffix_refl _,
      hinc, hlast⟩
  | cons d descs ih =>
    obtain ⟨id, opt, tid, pv⟩ := d
    obtain ⟨o, rs', l', h1, h2, hsuf, hinc', hl'⟩ := readFieldLoop_snoc tid pv id r rs last
      ((recordsBytes rs).length + 1) ((recordsBytes (rs ++ [r])).length + 1)
      hwf hwfr
      (fun x hx hxid => hcompat x hx (id, opt, tid, pv) (List.mem_cons_self _ _) hxid)
      hlt (hdlt (id, opt, tid, pv) (List.mem_cons_self _ _)) hlast hinc
      (by have := recordsBytes_length_ge rs; omega)
      (by have h3 := recordsBytes_length_ge (rs ++ [r])
          simp only [List.length_append, List.length_cons, List.length_nil] at h3
          omega)
    obtain ⟨os, rs'', l'', h3, h4, hsuf2, hinc2, hl2⟩ := ih rs' l'
      (fun y hy => hwf y (hsuf.subset hy))
      (fun y hy e he hid => hcompat y (hsuf.subset hy) e (List.mem_cons_of_mem _ he) hid)
      (fun y hy => hlt y (hsuf.subset hy))
      (fun e he => hdlt e (List.mem_cons_of_mem _ he))
      hl' hinc'
    refine ⟨o :: os, rs'', l'', ?_, ?_, hsuf2.trans hsuf, hinc2, hl2⟩
    · rw [runFields_cons, h1]
      dsimp only
      rw [h3]
    · rw [runFields_cons, h2]
      dsimp only
      rw [h4]

/-- `finish` also drains a trailing appended record whose id is larger than
everything before it. -/
theorem finishLoop_snoc (r : Rec) (rs : List Rec) (last : Option Nat) (fuel fuel' : Nat)
    (hwf : ∀ x ∈ rs, wfRec x) (hwfr : wfRec r)
    (hlt : ∀ x ∈ rs, x.1 < r.1)
    (hlast : ∀ l, last = some l → l < r.1)
    (hinc : idsIncreasing last rs = true)
    (hfuel : rs.length + 1 ≤ fuel) (hfuel' : rs.length + 1 + 1 ≤ fuel') :
    finishLoop fuel (recordsBytes rs) last = some (.ok ()) ∧
    finishLoop fuel' (recordsBytes (rs ++ [r])) last = some (.ok ()) := by
  induction rs generalizing last fuel fuel' with
  | nil =>
    obtain ⟨fuel, rfl⟩ : ∃ f, fuel = f + 1 := ⟨fuel - 1, by omega⟩
    obtain ⟨fuel', rfl⟩ : ∃ f, fuel' = f + 1 + 1 := ⟨fuel' - 2, by omega⟩
    refine ⟨finishLoop_nil fuel last, ?_⟩
    rw [List.nil_append, recordsBytes_cons]
    rw [finishLoop_skipStep (fuel' + 1) r.1 _ (recordsBytes ([] : List Rec)) last hwfr.1
      (orderViolation_lt last r.1 hlast) (skip_record r hwfr (recordsBytes []))]
    exact finishLoop_nil fuel' (some r.1)
  | cons x rest ih =>
    obtain ⟨fuel, rfl⟩ : ∃ f, fuel = f + 1 := ⟨fuel - 1, by omega⟩
    obtain ⟨fuel', rfl⟩ : ∃ f, fuel' = f + 1 := ⟨fuel' - 1, by omega⟩
    have hwfx := hwf x (List.mem_cons_self x rest)
    have hxr : x.1 < r.1 := hlt x (List.mem_cons_self x rest)
    obtain ⟨hlast_x, hinc'⟩ := idsIncreasing_cons last x rest hinc
    have hnv : orderViolation last x.1 = false := orderViolation_lt last x.1 hlast_x
    rw [recordsBytes_cons, List.cons_append, recordsBytes_cons]
    rw [finishLoop_skipStep fuel x.1 _ (recordsBytes rest) last hwfx.1 hnv
      (skip_record x hwfx (recordsBytes rest))]
    rw [finishLoop_skipStep fuel' x.1 _ (recordsBytes (rest ++ [r])) last hwfx.1 hnv
      (skip_record x hwfx (recordsBytes (rest ++ [r])))]
    exact ih (some x.1) fuel fuel'
      (fun y hy => hwf y (List.mem_cons_of_mem x hy))
      (fun y hy => hlt y (List.mem_cons_of_mem x hy))
      (fun l hl => by injection hl with hl; subst hl; exact hxr)
      hinc'
      (by simp only [List.length_cons] at hfuel; omega)
      (by simp only [List.length_cons] at hfuel'; omega)

/-- The generated struct `parse_value` is unchanged by appending one
well-formed record whose id exceeds every payload id and every declared id. -/
theorem structParseWith_snoc (descs : List FieldDesc) (r : Rec) (rs : List Rec)
    (hwf : ∀ x ∈ rs, wfRec x) (hwfr : wfRec r)
    (hcompat : ∀ x ∈ rs, ∀ d ∈ descs, x.1 = d.1 →
      d.2.2.1 = x.2.1 ∧ ∃ w, d.2.2.2 x.2.2.2 = some (.ok w))
    (hlt : ∀ x ∈ rs, x.1 < r.1) (hdlt : ∀ d ∈ descs, d.1 < r.1)
    (hinc : idsIncreasing none rs = true) :
    structParseWith descs (recordsBytes (rs ++ [r])) =
      structParseWith descs (recordsBytes rs) := by
  obtain ⟨os, rs', l', h1, h2, hsuf, hinc', hl'⟩ := runFields_snoc descs r rs none
    hwf hwfr hcompat hlt hdlt (fun l hl => by cases hl) hinc
  obtain ⟨hf1, hf2⟩ := finishLoop_snoc r rs' l' ((recordsBytes rs').length + 1)
    ((recordsBytes (rs' ++ [r])).length + 1)
    (fun y hy => hwf y (hsuf.subset hy)) hwfr
    (fun y hy => hlt y (hsuf.subset hy)) hl' hinc'
    (by have := recordsBytes_length_ge rs'; omega)
    (by rw [recordsBytes_snoc]
        have := recordsBytes_length_ge rs'
        simp only [List.length_append, recordBytes, List.length_cons]
        omega)
  rw [structParseWith_run, structParseWith_run, h1, h2]
  dsimp only
  rw [hf1, hf2]

end Relish

namespace Relish

theorem parseValue_struct (fs : List (Nat × Bool × RTy)) (data : List Nat) :
    parseValue (RTy.struct fs) data = structParseWith (fieldDescs fs) data := rfl

/-- `parse` of a varsize-typed TLV whose length prefix writes the content
length: type byte, length prefix, then `parse_value` on the exact content. -/
theorem parse_varsize (t : RTy) (hvs : t.typeId.lengthClass = .varsize)
    (p c : List Nat) (hp : writeTaggedVarintLength c.length = .ok p) :
    parse t (t.typeId.toByte :: (p ++ c)) =
      match parseValue t c with
      | none => none
      | some (.error e) => some (.error e)
      | some (.ok v) => some (.ok v) := by
  have hcarve : readValueForTypeid t.typeId (p ++ c) = .ok (c, []) := by
    rw [readValueForTypeid, hvs, writeTaggedVarint_read c.length p hp c]
    have h := readN_exact c.length c [] rfl
    rwa [List.append_nil] at h
  simp only [parse, parseTLVWith, readForType_toByte, parseVFTWith, hcarve]
  cases hpv : parseValue t c with
  | none => rfl
  | some res =>
    cases res with
    | error e => rfl
    | ok v => rfl

/-- Counterexample to claim C4 as stated: under the schema
`{0: u32 required, 3: Option<String>}` the payload holding only field 0
decodes successfully; appending the well-formed record `03 04 (9:u32)` —
whose field id 3 is strictly greater than every field id already in the
payload — and adjusting the length prefix makes decoding fail with
`TypeMismatch`, because id 3 collides with the declared (absent) optional
field of a different type.  Greater than the payload's ids is not enough;
the appended id must also clear the declared ids. -/
theorem C4_counterexample :
    parse (RTy.struct [(0, false, RTy.num NumTy.u32), (3, true, RTy.str)])
        [0x11, 0x0C, 0x00, 0x04, 7, 0, 0, 0] =
      some (.ok (.vstruct [(0, TypeId.u32, some (.vnum .u32 7)),
        (3, TypeId.string, none)])) ∧
    wfRec ((3 : Nat), TypeId.u32, [9, 0, 0, 0], [9, 0, 0, 0]) ∧
    (0 : Nat) < 3 ∧
    parse (RTy.struct [(0, false, RTy.num NumTy.u32), (3, true, RTy.str)])
        [0x11, 0x18, 0x00, 0x04, 7, 0, 0, 0, 0x03, 0x04, 9, 0, 0, 0] =
      some (.error (.TypeMismatch 0x0E 0x04)) :=
  ⟨rfl, ⟨by omega, fun extra => carve_fixed TypeId.u32 4 rfl [9, 0, 0, 0] extra rfl⟩,
    by omega, rfl⟩

/-- Claim C4 (amended): appending one well-formed record whose field id is
strictly greater than every field id in the payload **and** every declared
field id (with the length prefix adjusted) leaves the decode result of a
successfully-decoding struct TLV unchanged: the new field is skipped. -/
theorem C4_amended (fs : List (Nat × Bool × RTy)) (rs : List Rec) (r : Rec)
    (p p' : List Nat) (v : RVal)
    (hwf : ∀ x ∈ rs, wfRec x) (hwfr : wfRec r)
    (hcompat : ∀ x ∈ rs, ∀ f ∈ fs, x.1 = f.1 →
      f.2.2.typeId = x.2.1 ∧ ∃ w, parseValue f.2.2 x.2.2.2 = some (.ok w))
    (hlt : ∀ x ∈ rs, x.1 < r.1) (hdlt : ∀ f ∈ fs, f.1 < r.1)
    (hinc : idsIncreasing none rs = true)
    (hp : writeTaggedVarintLength (recordsBytes rs).length = .ok p)
    (hp' : writeTaggedVarintLength (recordsBytes (rs ++ [r])).length = .ok p')
    (hok : parse (RTy.struct fs) ((RTy.struct fs).typeId.toByte ::
      (p ++ recordsBytes rs)) = some (.ok v)) :
    parse (RTy.struct fs) ((RTy.struct fs).typeId.toByte ::
      (p' ++ recordsBytes (rs ++ [r]))) = some (.ok v) := by
  have hcompat' : ∀ x ∈ rs, ∀ d ∈ fieldDescs fs, x.1 = d.1 →
      d.2.2.1 = x.2.1 ∧ ∃ w, d.2.2.2 x.2.2.2 = some (.ok w) := by
    intro x hx d hd hid
    obtain ⟨f, hf, he⟩ := mem_fieldDescs d fs hd
    subst he
    exact hcompat x hx f hf hid
  have hdlt' : ∀ d ∈ fieldDescs fs, d.1 < r.1 := by
    intro d hd
    obtain ⟨f, hf, he⟩ := mem_fieldDescs d fs hd
    subst he
    exact hdlt f hf
  rw [parse_varsize (RTy.struct fs) rfl p (recordsBytes rs) hp] at hok
  rw [parse_varsize (RTy.struct fs) rfl p' (recordsBytes (rs ++ [r])) hp']
  rw [parseValue_struct] at hok ⊢
  rw [structParseWith_snoc (fieldDescs fs) r rs hwf hwfr hcompat' hlt hdlt' hinc]
  exact hok

/-- Witness for C4 (amended): under the schema `{0: u32 required}` the
payload `00 04 (7:u32)` still decodes to the same struct after appending
the record `05 04 (9:u32)` and adjusting the length prefix from 6 to 12. -/
theorem C4_amended_witness :
    parse (RTy.struct [(0, false, RTy.num NumTy.u32)])
        ((RTy.struct [(0, false, RTy.num NumTy.u32)]).typeId.toByte ::
          ([24] ++ recordsBytes ([((0 : Nat), TypeId.u32, [7, 0, 0, 0], [7, 0, 0, 0])] ++
            [((5 : Nat), TypeId.u32, [9, 0, 0, 0], [9, 0, 0, 0])]))) =
      some (.ok (.vstruct [(0, TypeId.u32, some (.vnum .u32 7))])) := by
  apply C4_amended [(0, false, RTy.num NumTy.u32)]
    [((0 : Nat), TypeId.u32, [7, 0, 0, 0], [7, 0, 0, 0])]
    ((5 : Nat), TypeId.u32, [9, 0, 0, 0], [9, 0, 0, 0]) [12]
  · intro x hx
    simp only [List.mem_cons, List.not_mem_nil, or_false] at hx
    subst hx
    exact ⟨by omega, fun extra => carve_fixed TypeId.u32 4 rfl [7, 0, 0, 0] extra rfl⟩
  · exact ⟨by omega, fun extra => carve_fixed TypeId.u32 4 rfl [9, 0, 0, 0] extra rfl⟩
  · intro x hx f hf hid
    simp only [List.mem_cons, List.not_mem_nil, or_false] at hx hf
    subst hx
    subst hf
    exact ⟨rfl, RVal.vnum NumTy.u32 7, rfl⟩
  · intro x hx
    simp only [List.mem_cons, List.not_mem_nil, or_false] at hx
    subst hx
    omega
  · intro f hf
    simp only [List.mem_cons, List.not_mem_nil, or_false] at hf
    subst hf
    omega
  · rfl
  · rfl
  · rfl
  · rfl

end Relish
